import Mathlib

/-!
Shallow embedding of the AutoClipper pipeline (src/index.js and the pairing
module src/unnamed/part_000, exported as findVideoPairs.js) together with
theorems settling the frozen claims C1..C10.

Conventions of the embedding:
* JS strings are Lean `String`s; all primitive operations (`trim`,
  `toLowerCase`, `path.extname`, `path.join`, `String(n)`, `padStart`) are
  modelled character-faithfully for the ASCII inputs the pipeline handles.
* The two regular expressions of the pairing module and the one of
  `sanitizeFolderName` are modelled by executable leftmost-match scanners
  whose semantics match the JS engine on these patterns (the `$`-anchored
  extension alternation admits exactly one match position for the dot).
* Filesystem state is passed explicitly: `pathExists` becomes a predicate
  `ex : String → Bool`; side effects (ffmpeg invocations, moves, removes)
  become values of an `Action` type collected in traces.
* `localeCompare` is modelled as code-point lexicographic comparison, and the
  stable Array.prototype.sort is modelled by a stable insertion sort.
-/

namespace AutoClipper

/-! ## JS character and string primitives -/

/-- Whitespace recognized by JS `\s` and `String.prototype.trim`
(ASCII subset; the pipeline's filenames use only these). -/
def isJsWs (c : Char) : Bool :=
  c = ' ' || c = '\t' || c = '\n' || c = '\r' || c = '\x0b' || c = '\x0c'

/-- Line terminators excluded by the JS regex `.` class. -/
def isLineTerm (c : Char) : Bool :=
  c = '\n' || c = '\r' || c = ' ' || c = ' '

/-- `String.prototype.trim`, on char lists. -/
def trimChars (cs : List Char) : List Char :=
  ((cs.dropWhile isJsWs).reverse.dropWhile isJsWs).reverse

/-- `String.prototype.trim`. -/
def jsTrim (s : String) : String := ⟨trimChars s.data⟩

/-- ASCII `toLowerCase` on a character. -/
def jsLowerChar (c : Char) : Char :=
  if 'A' ≤ c ∧ c ≤ 'Z' then Char.ofNat (c.toNat + 32) else c

/-- `String.prototype.toLowerCase` (ASCII-faithful). -/
def jsToLower (s : String) : String := ⟨s.data.map jsLowerChar⟩

/-- `path.join` for the simple (already normalized) arguments the pipeline
uses: plain concatenation with a separator. -/
def pjoin (a b : String) : String := a ++ "/" ++ b

/-- `path.extname` on a basename: the suffix starting at the last dot,
empty when there is no dot or the only dot is the leading character. -/
def extname (s : String) : String :=
  let r := s.data.reverse
  match r.dropWhile (fun c => ¬ c = '.') with
  | [] => ""
  | _ :: r2 => if r2 = [] then "" else ⟨'.' :: (r.takeWhile (fun c => ¬ c = '.')).reverse⟩

/-- `path.parse(file).name`: the basename with its `extname` removed. -/
def parseName (s : String) : String :=
  ⟨s.data.take (s.data.length - (extname s).data.length)⟩

/-- `path.basename`: the part after the last slash. -/
def basename (s : String) : String :=
  ⟨(s.data.reverse.takeWhile (fun c => ¬ c = '/')).reverse⟩

/-! ## Decimal rendering: JS template `${n}` and `String(n).padStart(2, '0')` -/

/-- Decimal digits of `n` (fuel-based so that the kernel can evaluate it). -/
def decDigits : Nat → Nat → List Char
  | 0, _ => []
  | fuel + 1, n =>
    if n < 10 then [Nat.digitChar n]
    else decDigits fuel (n / 10) ++ [Nat.digitChar (n % 10)]

/-- JS `String(n)` for a nonnegative integer: decimal digits, no leading zeros. -/
def decRepr (n : Nat) : List Char := decDigits (n + 1) n

/-- JS `String(n)` as a `String`. -/
def decReprS (n : Nat) : String := ⟨decRepr n⟩

/-- `String(n).padStart(2, '0')`. -/
def pad2 (n : Nat) : String :=
  ⟨List.replicate (2 - (decRepr n).length) '0' ++ decRepr n⟩

/-- Decode a digit string back to a number: inverse used to prove `pad2` is
injective. -/
def decValue (cs : List Char) : Nat :=
  cs.foldl (fun a c => a * 10 + (c.toNat - 48)) 0

theorem decValue_append (xs ys : List Char) :
    decValue (xs ++ ys) = ys.foldl (fun a c => a * 10 + (c.toNat - 48)) (decValue xs) := by
  simp [decValue, List.foldl_append]

theorem digitChar_toNat {d : Nat} (h : d < 10) : (Nat.digitChar d).toNat = 48 + d := by
  interval_cases d <;> rfl

theorem decValue_decDigits (fuel n : Nat) (h : n < fuel) :
    decValue (decDigits fuel n) = n := by
  induction fuel generalizing n with
  | zero => omega
  | succ f ih =>
    by_cases hn : n < 10
    · simp [decDigits, hn, decValue, digitChar_toNat hn]
    · have hdiv : n / 10 < f := by omega
      have hmod : n % 10 < 10 := Nat.mod_lt _ (by omega)
      simp only [decDigits, hn, if_false]
      rw [decValue_append, ih _ hdiv]
      simp [digitChar_toNat hmod]
      omega

theorem decValue_decRepr (n : Nat) : decValue (decRepr n) = n :=
  decValue_decDigits (n + 1) n (Nat.lt_succ_self n)

theorem decValue_replicate_zero (k : Nat) (cs : List Char) :
    decValue (List.replicate k '0' ++ cs) = decValue cs := by
  induction k with
  | zero => rfl
  | succ m ih =>
    simpa [List.replicate_succ, decValue] using ih

theorem pad2_inj {m n : Nat} (h : pad2 m = pad2 n) : m = n := by
  have hd : (pad2 m).data = (pad2 n).data := by rw [h]
  simp only [pad2] at hd
  have hm := decValue_replicate_zero (2 - (decRepr m).length) (decRepr m)
  have hn := decValue_replicate_zero (2 - (decRepr n).length) (decRepr n)
  have : decValue (decRepr m) = decValue (decRepr n) := by
    rw [← hm, ← hn, hd]
  rwa [decValue_decRepr, decValue_decRepr] at this

/-- Every character of `decDigits` is a decimal digit. -/
theorem decDigits_digits (fuel n : Nat) :
    ∀ c ∈ decDigits fuel n, '0' ≤ c ∧ c ≤ '9' := by
  induction fuel generalizing n with
  | zero => intro c hc; simp [decDigits] at hc
  | succ f ih =>
    intro c hc
    by_cases hn : n < 10
    · simp [decDigits, hn] at hc
      subst hc
      interval_cases n <;> exact ⟨by decide, by decide⟩
    · simp only [decDigits, hn, if_false, List.mem_append, List.mem_singleton] at hc
      rcases hc with hc | hc
      · exact ih _ _ hc
      · subst hc
        have hmod : n % 10 < 10 := Nat.mod_lt _ (by omega)
        interval_cases h : n % 10 <;> exact ⟨by decide, by decide⟩

theorem pad2_digits (n : Nat) : ∀ c ∈ (pad2 n).data, '0' ≤ c ∧ c ≤ '9' := by
  intro c hc
  simp only [pad2, List.mem_append] at hc
  rcases hc with hc | hc
  · have := List.eq_of_mem_replicate hc
    subst this
    exact ⟨by decide, by decide⟩
  · exact decDigits_digits _ _ c hc

/-! ## Lexicographic string comparison (model of `localeCompare` ordering) -/

/-- Code-point lexicographic `≤` on char lists. -/
def lexLe : List Char → List Char → Bool
  | [], _ => true
  | _ :: _, [] => false
  | a :: as, b :: bs => if a = b then lexLe as bs else decide (a.toNat < b.toNat)

/-- Model of `a.localeCompare(b) ≤ 0`. -/
def strLe (a b : String) : Bool := lexLe a.data b.data

theorem lexLe_total (a b : List Char) : lexLe a b = true ∨ lexLe b a = true := by
  induction a generalizing b with
  | nil => left; rfl
  | cons x xs ih =>
    cases b with
    | nil => right; rfl
    | cons y ys =>
      by_cases hxy : x = y
      · subst hxy
        rcases ih ys with h | h
        · left; simpa [lexLe] using h
        · right; simpa [lexLe] using h
      · have hyx : ¬ y = x := fun h => hxy h.symm
        rcases Nat.lt_trichotomy x.toNat y.toNat with h | h | h
        · left; simp [lexLe, hxy, h]
        · exact absurd (Char.eq_of_val_eq (UInt32.eq_of_toBitVec_eq (BitVec.eq_of_toNat_eq h)))
            hxy
        · right; simp [lexLe, hyx, h]

theorem lexLe_antisymm {a b : List Char} (h1 : lexLe a b = true) (h2 : lexLe b a = true) :
    a = b := by
  induction a generalizing b with
  | nil =>
    cases b with
    | nil => rfl
    | cons y ys => simp [lexLe] at h2
  | cons x xs ih =>
    cases b with
    | nil => simp [lexLe] at h1
    | cons y ys =>
      by_cases hxy : x = y
      · subst hxy
        simp only [lexLe, if_pos rfl] at h1 h2
        rw [ih h1 h2]
      · have hyx : ¬ y = x := fun h => hxy h.symm
        simp only [lexLe, if_neg hxy, decide_eq_true_eq] at h1
        simp only [lexLe, if_neg hyx, decide_eq_true_eq] at h2
        omega

theorem lexLe_trans {a b c : List Char} (h1 : lexLe a b = true) (h2 : lexLe b c = true) :
    lexLe a c = true := by
  induction a generalizing b c with
  | nil => rfl
  | cons x as ih =>
    cases b with
    | nil => simp [lexLe] at h1
    | cons y bs =>
      cases c with
      | nil => simp [lexLe] at h2
      | cons z cs =>
        by_cases hxy : x = y
        · by_cases hyz : y = z
          · have hxz : x = z := hxy.trans hyz
            simp only [lexLe, if_pos hxy] at h1
            simp only [lexLe, if_pos hyz] at h2
            simp only [lexLe, if_pos hxz]
            exact ih h1 h2
          · have hxz : ¬ x = z := fun hc => hyz (hxy.symm.trans hc)
            simp only [lexLe, if_pos hxy] at h1
            simp only [lexLe, if_neg hyz, decide_eq_true_eq] at h2
            simp only [lexLe, if_neg hxz, decide_eq_true_eq]
            have hnat : x.toNat = y.toNat := by rw [hxy]
            omega
        · by_cases hyz : y = z
          · have hxz : ¬ x = z := fun hc => hxy (hc.trans hyz.symm)
            simp only [lexLe, if_neg hxy, decide_eq_true_eq] at h1
            simp only [lexLe, if_neg hxz, decide_eq_true_eq]
            have hnat : y.toNat = z.toNat := by rw [hyz]
            omega
          · simp only [lexLe, if_neg hxy, decide_eq_true_eq] at h1
            simp only [lexLe, if_neg hyz, decide_eq_true_eq] at h2
            have hxz : ¬ x = z := by
              intro hc
              have hnat : x.toNat = z.toNat := by rw [hc]
              omega
            simp only [lexLe, if_neg hxz, decide_eq_true_eq]
            omega

theorem strLe_total (a b : String) : strLe a b = true ∨ strLe b a = true :=
  lexLe_total a.data b.data

theorem strLe_trans {a b c : String} (h1 : strLe a b = true) (h2 : strLe b c = true) :
    strLe a c = true :=
  lexLe_trans h1 h2

theorem strLe_antisymm {a b : String} (h1 : strLe a b = true) (h2 : strLe b a = true) :
    a = b := by
  cases a; cases b
  exact congrArg String.mk (lexLe_antisymm h1 h2)

/-! ## Basic facts about `extname` -/

theorem string_data_append (a b : String) : (a ++ b).data = a.data ++ b.data := rfl

theorem string_mk_data (s : String) : String.mk s.data = s := rfl

/-- A name that ends in `.mp4` with a nonempty part before the dot has
extension `.mp4` under `path.extname`. -/
theorem extname_append_mp4 (t : List Char) (h : t ≠ []) :
    extname ⟨t ++ ".mp4".data⟩ = ".mp4" := by
  have hrev : (t ++ ".mp4".data).reverse = '4' :: 'p' :: 'm' :: '.' :: t.reverse := by
    show (t ++ ['.', 'm', 'p', '4']).reverse = _
    simp
  have hd : List.dropWhile (fun c => ¬ c = '.') ('4' :: 'p' :: 'm' :: '.' :: t.reverse)
      = '.' :: t.reverse := rfl
  have htk : List.takeWhile (fun c => ¬ c = '.') ('4' :: 'p' :: 'm' :: '.' :: t.reverse)
      = ['4', 'p', 'm'] := rfl
  have ht : ¬ t.reverse = [] := fun hh => h (by simpa using congrArg List.reverse hh)
  simp only [extname, hrev, hd, htk]
  simp [ht]

/-! ## Identity extraction (findVideoPairs.js: `extractUsername`, `extractTimestamp`)

Both regexes are `$`-anchored on `\.(?:mp4|mov|MOV|TS)`, so a match fixes the
dot at the last position admitting one of the four literal extensions.
`extSplit` performs that split; the scanners below implement the leftmost
match over the remaining stem. -/

/-- Split `cs` into the stem before the final `.mp4`/`.mov`/`.MOV`/`.TS`
extension accepted by the extraction regexes, if it ends in one. -/
def extSplit (cs : List Char) : Option (List Char × List Char) :=
  let r := cs.reverse
  if r.take 4 = ['4', 'p', 'm', '.'] then some ((r.drop 4).reverse, ['m', 'p', '4'])
  else if r.take 4 = ['v', 'o', 'm', '.'] then some ((r.drop 4).reverse, ['m', 'o', 'v'])
  else if r.take 4 = ['V', 'O', 'M', '.'] then some ((r.drop 4).reverse, ['M', 'O', 'V'])
  else if r.take 3 = ['S', 'T', '.'] then some ((r.drop 3).reverse, ['T', 'S'])
  else none

/-- Leftmost match of `[- ]([^-]+)` against the stem, anchored at its end:
the capture of `/[- ]([^-]+)\.(?:mp4|mov|MOV|TS)$/`. -/
def findCapU : List Char → Option (List Char)
  | [] => none
  | c :: rest =>
    if (c = '-' ∨ c = ' ') ∧ rest ≠ [] ∧ '-' ∉ rest then some rest
    else findCapU rest

/-- `extractUsername` of findVideoPairs.js:
`filename.match(/[- ]([^-]+)\.(?:mp4|mov|MOV|TS)$/)`, returning the trimmed
capture or the empty string. -/
def extractUsername (f : String) : String :=
  match extSplit f.data with
  | none => ""
  | some (stem, _) =>
    match findCapU stem with
    | none => ""
    | some cap => jsTrim ⟨cap⟩

/-- Does the stem suffix `t` match `\s*-\s*[^-]+` exactly (to the end of the
stem)?  Since `[^-]+` excludes the dash and whitespace never is a dash, this
holds iff the first non-whitespace character is a dash whose tail is nonempty
and dash-free. -/
def tailMatchT (t : List Char) : Bool :=
  match t.dropWhile isJsWs with
  | '-' :: u => decide (u ≠ [] ∧ '-' ∉ u)
  | _ => false

/-- Scanner for the lazy group of
`/^(.+?)(?:\s*-\s*[^-]+\.(?:mp4|mov|MOV|TS))$/`: the shortest nonempty
prefix (of `.`-class characters) whose remainder matches `\s*-\s*[^-]+`. -/
def scanT (pre : List Char) : List Char → Option (List Char)
  | [] => none
  | c :: rest =>
    if isLineTerm c then none
    else if tailMatchT rest then some (pre ++ [c])
    else scanT (pre ++ [c]) rest

/-- `extractTimestamp` of findVideoPairs.js:
`filename.match(/^(.+?)(?:\s*-\s*[^-]+\.(?:mp4|mov|MOV|TS))$/)`, returning
the trimmed capture or the empty string. -/
def extractTimestamp (f : String) : String :=
  match extSplit f.data with
  | none => ""
  | some (stem, _) =>
    match scanT [] stem with
    | none => ""
    | some cap => jsTrim ⟨cap⟩

/-! ## `sanitizeFolderName` (index.js) -/

/-- Leftmost match of the regex "dash, space, capture `[^-]+`, end" used by
`sanitizeFolderName`: capture after a literal dash-space whose remainder is
nonempty and dash-free. -/
def sanCap : List Char → Option (List Char)
  | [] => none
  | c :: rest =>
    if c = '-' then
      match rest with
      | ' ' :: r2 => if r2 ≠ [] ∧ '-' ∉ r2 then some r2 else sanCap rest
      | _ => sanCap rest
    else sanCap rest

/-- The invalid Windows filename characters replaced by `_`. -/
def invalidChar (c : Char) : Bool :=
  c = '<' || c = '>' || c = ':' || c = '"' || c = '/' || c = '\\' || c = '|' || c = '?' || c = '*'

/-- The character class `[a-zA-Z0-9._-]` kept by the final strip. -/
def allowedChar (c : Char) : Bool :=
  ('a' ≤ c && c ≤ 'z') || ('A' ≤ c && c ≤ 'Z') || ('0' ≤ c && c ≤ '9')
    || c = '.' || c = '_' || c = '-'

/-- `replace(/\s+/g, '_')`: each maximal whitespace run becomes one `_`. -/
def collapseWsAux : Bool → List Char → List Char
  | p, [] => if p then ['_'] else []
  | p, c :: rest =>
    if isJsWs c then collapseWsAux true rest
    else (if p then ['_', c] else [c]) ++ collapseWsAux false rest

/-- `sanitizeFolderName` of index.js. -/
def sanitizeFolderName (name : String) : String :=
  let uname : List Char := match sanCap name.data with | some cap => cap | none => name.data
  let s1 := trimChars uname
  let s2 := s1.map (fun c => if invalidChar c then '_' else c)
  let s3 := collapseWsAux false s2
  let s4 := s3.filter allowedChar
  ⟨s4.take 30⟩

theorem sanitizeFolderName_allowed (name : String) :
    ∀ c ∈ (sanitizeFolderName name).data, allowedChar c = true := by
  intro c hc
  simp only [sanitizeFolderName] at hc
  have := List.mem_of_mem_take hc
  exact (List.mem_filter.mp this).2

theorem sanitizeFolderName_no_slash (name : String) :
    '/' ∉ (sanitizeFolderName name).data := by
  intro h
  have := sanitizeFolderName_allowed name _ h
  simp [allowedChar] at this

/-! ## The video-extension filter (findVideoPairs.js lines 48–56) -/

/-- The literal list in the source:
`['.mp4', '.avi', '.mov', '.mkv', '.wmv', '.TS']`. -/
def videoExtList : List String := [".mp4", ".avi", ".mov", ".mkv", ".wmv", ".TS"]

/-- The filter predicate applied to each directory entry:
`videoExtList.includes(path.extname(file).toLowerCase())`. -/
def isVideoFile (f : String) : Bool := videoExtList.contains (jsToLower (extname f))

/-! ## The pairing engine (findVideoPairs.js lines 78–198)

JS `Map` is modelled by an insertion-ordered association list, JS `Set` by a
list of the inserted elements (each insertion below is guarded by a
freshness check, so lengths agree with `Set.size`). -/

/-- One grouped entry: `{ file, timestamp: extractTimestamp(file) }`. -/
structure VidEntry where
  file : String
  timestamp : String
deriving DecidableEq, Repr

/-- Insertion-ordered map lookup (`Map.prototype.get`). -/
def mapGet? : List (String × List VidEntry) → String → Option (List VidEntry)
  | [], _ => none
  | kv :: rest, k => if kv.1 = k then some kv.2 else mapGet? rest k

/-- `Map.prototype.has`. -/
def mapHas : List (String × List VidEntry) → String → Bool
  | [], _ => false
  | kv :: rest, k => kv.1 = k || mapHas rest k

/-- `if (!map.has(u)) map.set(u, []); map.get(u).push(e)`. -/
def mapPush (m : List (String × List VidEntry)) (k : String) (e : VidEntry) :
    List (String × List VidEntry) :=
  if mapHas m k then m.map (fun kv => if kv.1 = k then (kv.1, kv.2 ++ [e]) else kv)
  else m ++ [(k, [e])]

/-- Grouping loop: `videos.forEach(file => ... map.get(username).push({file, timestamp}))`. -/
def buildMap (files : List String) : List (String × List VidEntry) :=
  files.foldl (fun m f => mapPush m (extractUsername f) ⟨f, extractTimestamp f⟩) []

/-- Stable insertion of `x` into a list sorted by timestamp: `x` goes before
the first strictly greater element and after equal ones that were earlier in
the original array — the result of JS's stable `sort((a, b) =>
a.timestamp.localeCompare(b.timestamp))`. -/
def insertTs (x : VidEntry) : List VidEntry → List VidEntry
  | [] => [x]
  | y :: ys => if strLe x.timestamp y.timestamp then x :: y :: ys else y :: insertTs x ys

/-- Stable sort by timestamp. -/
def sortTs : List VidEntry → List VidEntry
  | [] => []
  | x :: xs => insertTs x (sortTs xs)

/-- A resolved pair as pushed by the source (video paths, parsed names,
username). -/
structure VPair where
  video1 : String
  video2 : String
  name1 : String
  name2 : String
  username : String
deriving DecidableEq, Repr

/-- The mutable state of the pairing loop. -/
structure EmitState where
  pairs : List VPair
  usedP : List String
  usedS : List String
  processed : List String
deriving DecidableEq, Repr

/-- Initial state. -/
def initES : EmitState := ⟨[], [], [], []⟩

/-- The pair object pushed for one `(productVid, selfieVid)` slot. -/
def mkVPair (productDir selfieDir w : String) (ab : VidEntry × VidEntry) : VPair :=
  ⟨pjoin productDir ab.1.file, pjoin selfieDir ab.2.file,
    parseName ab.1.file, parseName ab.2.file, w⟩

/-- Body of the inner `for (let i = 0; i < minLength; i++)` loop for one
candidate `(productVid, selfieVid)` slot: skip if either video is in a used
set, then verify both files exist, then push and mark used. -/
def emitSlot (productDir selfieDir : String) (ex : String → Bool) (w : String)
    (st : EmitState) (ab : VidEntry × VidEntry) : EmitState :=
  let a := pjoin productDir ab.1.file
  let b := pjoin selfieDir ab.2.file
  if a ∈ st.usedP ∨ b ∈ st.usedS then st
  else if ex a && ex b then
    { st with
      pairs := st.pairs ++ [mkVPair productDir selfieDir w ab],
      usedP := st.usedP ++ [a],
      usedS := st.usedS ++ [b] }
  else st

/-- Inner loop over the positional slots of one username. -/
def emitForUser (productDir selfieDir : String) (ex : String → Bool) (w : String)
    (pv sv : List VidEntry) (st : EmitState) : EmitState :=
  ((sortTs pv).zip (sortTs sv)).foldl (emitSlot productDir selfieDir ex w) st

/-- Outer loop `for (const [username, productVids] of productMap)`. -/
def emitAll (productDir selfieDir : String) (ex : String → Bool)
    (pm sm : List (String × List VidEntry)) : EmitState :=
  pm.foldl
    (fun st kv =>
      match mapGet? sm kv.1 with
      | none => st
      | some sv =>
        let st2 := emitForUser productDir selfieDir ex kv.1 kv.2 sv st
        { st2 with processed := st2.processed ++ [kv.1] })
    initES

/-- `findVideoPairs`, as a function of the two directory listings and the
filesystem-existence oracle; returns the final loop state (pairs plus the
used/processed diagnostics the report is computed from). -/
def findVideoPairsState (sourceDir : String) (productFiles selfieFiles : List String)
    (ex : String → Bool) : EmitState :=
  let productDir := pjoin sourceDir "product"
  let selfieDir := pjoin sourceDir "selfie"
  let productVideos := productFiles.filter isVideoFile
  let selfieVideos := selfieFiles.filter isVideoFile
  if productVideos.isEmpty || selfieVideos.isEmpty then initES
  else emitAll productDir selfieDir ex (buildMap productVideos) (buildMap selfieVideos)

/-- The pair list `findVideoPairs` returns. -/
def findVideoPairsModel (sourceDir : String) (productFiles selfieFiles : List String)
    (ex : String → Bool) : List VPair :=
  (findVideoPairsState sourceDir productFiles selfieFiles ex).pairs

/-- The `skippedProduct` diagnostic:
`productVideos.length - usedProductVideos.size`. -/
def skippedProductCount (sourceDir : String) (productFiles selfieFiles : List String)
    (ex : String → Bool) : Nat :=
  (productFiles.filter isVideoFile).length
    - (findVideoPairsState sourceDir productFiles selfieFiles ex).usedP.length

/-! ## Lemmas about the grouping map -/

theorem mapHas_iff (m : List (String × List VidEntry)) (w : String) :
    mapHas m w = true ↔ w ∈ m.map (fun kv => kv.1) := by
  induction m with
  | nil => simp [mapHas]
  | cons kv rest ih =>
    simp only [mapHas, Bool.or_eq_true, decide_eq_true_eq, List.map_cons, List.mem_cons, ih]
    constructor
    · rintro (h | h)
      · exact Or.inl h.symm
      · exact Or.inr h
    · rintro (h | h)
      · exact Or.inl h.symm
      · exact Or.inr h

theorem mapGet?_nil (w : String) : mapGet? [] w = none := rfl

theorem mapGet?_cons (kv : String × List VidEntry) (rest : List (String × List VidEntry))
    (w : String) :
    mapGet? (kv :: rest) w = if kv.1 = w then some kv.2 else mapGet? rest w := rfl

theorem mapGet?_eq_none_iff (m : List (String × List VidEntry)) (w : String) :
    mapGet? m w = none ↔ w ∉ m.map (fun kv => kv.1) := by
  induction m with
  | nil => simp [mapGet?]
  | cons kv rest ih =>
    simp only [mapGet?_cons, List.map_cons, List.mem_cons]
    by_cases hk : kv.1 = w
    · simp [hk]
    · rw [if_neg hk, ih]
      constructor
      · intro h hc
        rcases hc with hc | hc
        · exact hk hc.symm
        · exact h hc
      · intro h hc
        exact h (Or.inr hc)

theorem mapGet?_append_right (m : List (String × List VidEntry)) (kv : String × List VidEntry)
    (w : String) (h : mapGet? m w = none) :
    mapGet? (m ++ [kv]) w = if kv.1 = w then some kv.2 else none := by
  induction m with
  | nil => simp [mapGet?]
  | cons kv0 rest ih =>
    by_cases hk : kv0.1 = w
    · simp [mapGet?, hk] at h
    · simp only [mapGet?, hk, if_false, if_neg hk, List.cons_append] at h ⊢
      exact ih h

theorem mapGet?_map_update (m : List (String × List VidEntry)) (k : String) (e : VidEntry)
    (w : String) :
    mapGet? (m.map (fun kv => if kv.1 = k then (kv.1, kv.2 ++ [e]) else kv)) w =
      if w = k then (mapGet? m k).map (fun g => g ++ [e]) else mapGet? m w := by
  induction m with
  | nil => by_cases hw : w = k <;> simp [mapGet?, hw]
  | cons kv rest ih =>
    by_cases hk : kv.1 = k
    · by_cases hw : w = k
      · have h3 : kv.1 = w := by rw [hk, hw]
        simp [mapGet?_cons, hk, h3, hw]
      · have h3 : ¬ kv.1 = w := by rw [hk]; exact fun hc => hw hc.symm
        simp only [List.map_cons, if_pos hk, mapGet?_cons, h3, if_neg h3, if_neg hw] at ih ⊢
        simpa [hw] using ih
    · by_cases hw : w = k
      · subst hw
        simp only [List.map_cons, if_neg hk, mapGet?_cons, if_neg hk, if_pos rfl] at ih ⊢
        simpa using ih
      · by_cases h2 : kv.1 = w
        · simp [mapGet?_cons, List.map_cons, if_neg hk, h2, hw]
        · simp only [List.map_cons, if_neg hk, mapGet?_cons, if_neg h2] at ih ⊢
          simpa [hw] using ih

theorem mapGet?_mapPush (m : List (String × List VidEntry)) (k : String) (e : VidEntry)
    (w : String) :
    mapGet? (mapPush m k e) w =
      if w = k then some (((mapGet? m k).getD []) ++ [e]) else mapGet? m w := by
  by_cases hh : mapHas m k = true
  · have hsome : ∃ g, mapGet? m k = some g := by
      rcases hx : mapGet? m k with _ | g
      · rw [mapGet?_eq_none_iff] at hx
        rw [mapHas_iff] at hh
        exact absurd hh hx
      · exact ⟨g, rfl⟩
    obtain ⟨g, hg⟩ := hsome
    simp only [mapPush, hh, if_true, mapGet?_map_update, hg]
    by_cases hw : w = k
    · simp [hw]
    · simp [hw]
  · have hh2 : mapHas m k = false := by simpa using hh
    have hnone : mapGet? m k = none := by
      rw [mapGet?_eq_none_iff]
      intro hc
      rw [← mapHas_iff] at hc
      exact hh hc
    simp only [mapPush, hh2, Bool.false_eq_true, if_false]
    by_cases hw : w = k
    · subst hw
      rw [mapGet?_append_right m _ _ hnone, if_pos rfl, if_pos rfl, hnone]
      rfl
    · by_cases hr : mapGet? m w = none
      · rw [mapGet?_append_right m _ _ hr, if_neg (fun hc : k = w => hw hc.symm), if_neg hw, hr]
      · rw [if_neg hw]
        rcases hx : mapGet? m w with _ | g
        · exact absurd hx hr
        · clear hr hh hh2
          induction m with
          | nil => simp [mapGet?] at hx
          | cons kv rest ih =>
            by_cases h2 : kv.1 = w
            · simp only [mapGet?_cons, if_pos h2] at hx
              simp [mapGet?_cons, h2, hx]
            · simp only [mapGet?_cons, if_neg h2] at hx
              have hnone2 : mapGet? rest k = none := by
                rw [mapGet?_cons] at hnone
                by_cases h3 : kv.1 = k
                · simp [h3] at hnone
                · simpa [h3] using hnone
              simp only [List.cons_append, mapGet?_cons, if_neg h2]
              exact ih hnone2 hx

theorem buildMap_snoc (files : List String) (f : String) :
    buildMap (files ++ [f]) =
      mapPush (buildMap files) (extractUsername f) ⟨f, extractTimestamp f⟩ := by
  simp [buildMap, List.foldl_append]

/-- The group stored under `w` is exactly the (ordered) list of files whose
extracted username is `w`. -/
theorem mapGet?_buildMap (files : List String) (w : String) :
    mapGet? (buildMap files) w =
      (fun g => if g = [] then none
        else some (g.map (fun f => VidEntry.mk f (extractTimestamp f))))
      (files.filter (fun f => extractUsername f = w)) := by
  induction files using List.reverseRecOn with
  | nil => simp [buildMap, mapGet?]
  | append_singleton fs f ih =>
    rw [buildMap_snoc, mapGet?_mapPush]
    by_cases hw : w = extractUsername f
    · subst hw
      rw [if_pos rfl, ih]
      have hf : fs.filter (fun x => decide (extractUsername x = extractUsername f))
            ++ [f] =
          (fs ++ [f]).filter (fun x => decide (extractUsername x = extractUsername f)) := by
        simp [List.filter_append]
      by_cases hg : fs.filter (fun x => decide (extractUsername x = extractUsername f)) = []
      · simp only [hg, if_pos rfl, Option.getD_none, List.nil_append, ← hf, hg]
        simp
      · simp only [hg, if_neg hg, Option.getD_some, ← hf]
        have : ¬ (fs.filter (fun x => decide (extractUsername x = extractUsername f)) ++ [f] = []) := by
          simp
        simp only [this, if_neg this]
        simp
    · rw [if_neg hw, ih]
      have : (fs ++ [f]).filter (fun x => decide (extractUsername x = w)) =
          fs.filter (fun x => decide (extractUsername x = w)) := by
        simp [List.filter_append]
        intro hc
        exact absurd hc.symm hw
      rw [this]

theorem mapKeys_mapPush (m : List (String × List VidEntry)) (k : String) (e : VidEntry) :
    (mapPush m k e).map (fun kv => kv.1) =
      if mapHas m k then m.map (fun kv => kv.1) else m.map (fun kv => kv.1) ++ [k] := by
  by_cases hh : mapHas m k = true
  · simp only [mapPush, hh, if_true, List.map_map]
    apply List.map_congr_left
    intro kv _
    by_cases h2 : kv.1 = k <;> simp [h2]
  · have hh2 : mapHas m k = false := by simpa using hh
    simp [mapPush, hh2]

theorem mapKeys_buildMap_nodup (files : List String) :
    ((buildMap files).map (fun kv => kv.1)).Nodup := by
  induction files using List.reverseRecOn with
  | nil => simp [buildMap]
  | append_singleton fs f ih =>
    rw [buildMap_snoc, mapKeys_mapPush]
    by_cases hh : mapHas (buildMap fs) (extractUsername f) = true
    · simpa [hh] using ih
    · have hh2 : mapHas (buildMap fs) (extractUsername f) = false := by simpa using hh
      have hnotin : extractUsername f ∉ (buildMap fs).map (fun kv => kv.1) := by
        rw [← mapHas_iff]
        simp [hh2]
      simp [hh2, List.nodup_append, ih, hnotin]

theorem mapKeys_buildMap_mem (files : List String) (w : String) :
    w ∈ (buildMap files).map (fun kv => kv.1) ↔ w ∈ files.map extractUsername := by
  constructor
  · intro h
    by_contra hc
    have hfil : files.filter (fun x => decide (extractUsername x = w)) = [] := by
      rw [List.filter_eq_nil_iff]
      intro x hx
      simp only [decide_eq_true_eq]
      intro he
      exact hc (List.mem_map.mpr ⟨x, hx, he⟩)
    have hmg := mapGet?_buildMap files w
    rw [hfil] at hmg
    simp only [if_pos] at hmg
    rw [mapGet?_eq_none_iff] at hmg
    exact hmg h
  · intro h
    obtain ⟨x, hx, he⟩ := List.mem_map.mp h
    by_contra hc
    rw [← mapGet?_eq_none_iff] at hc
    have hmg := mapGet?_buildMap files w
    rw [hc] at hmg
    have hmem : x ∈ files.filter (fun x => decide (extractUsername x = w)) :=
      List.mem_filter.mpr ⟨hx, by simp [he]⟩
    rcases hfil : files.filter (fun x => decide (extractUsername x = w)) with _ | _
    · rw [hfil] at hmem
      simp at hmem
    · rw [hfil] at hmg
      simp at hmg

/-- In a map with nodup keys every stored pair is recovered by lookup. -/
theorem mapGet?_of_mem (m : List (String × List VidEntry))
    (hnd : (m.map (fun kv => kv.1)).Nodup) (kv : String × List VidEntry) (h : kv ∈ m) :
    mapGet? m kv.1 = some kv.2 := by
  induction m with
  | nil => simp at h
  | cons kv0 rest ih =>
    rw [List.map_cons, List.nodup_cons] at hnd
    rcases List.mem_cons.mp h with h2 | h2
    · subst h2
      simp [mapGet?_cons]
    · have hne : ¬ kv0.1 = kv.1 := by
        intro hc
        exact hnd.1 (hc ▸ List.mem_map.mpr ⟨kv, h2, rfl⟩)
      rw [mapGet?_cons, if_neg hne]
      exact ih hnd.2 h2

/-- A nodup-keys map is determined by its key list and lookup function. -/
theorem map_eq_keysMap (m : List (String × List VidEntry))
    (hnd : (m.map (fun kv => kv.1)).Nodup) :
    m = (m.map (fun kv => kv.1)).map (fun w => (w, (mapGet? m w).getD [])) := by
  rw [List.map_map]
  conv_lhs => rw [← List.map_id m]
  apply List.map_congr_left
  intro kv hkv
  have := mapGet?_of_mem m hnd kv hkv
  simp [Function.comp, this]

/-! ## Lemmas about the stable sort -/

theorem insertTs_perm (x : VidEntry) (l : List VidEntry) :
    (insertTs x l).Perm (x :: l) := by
  induction l with
  | nil => exact List.Perm.refl _
  | cons y ys ih =>
    by_cases h : strLe x.timestamp y.timestamp = true
    · simp only [insertTs, h, if_true]
      exact List.Perm.refl _
    · have h2 : strLe x.timestamp y.timestamp = false := by simpa using h
      simp only [insertTs, h2, Bool.false_eq_true, if_false]
      exact (ih.cons y).trans (List.Perm.swap x y ys)

theorem sortTs_perm (l : List VidEntry) : (sortTs l).Perm l := by
  induction l with
  | nil => exact List.Perm.refl _
  | cons x xs ih =>
    exact (insertTs_perm x (sortTs xs)).trans (ih.cons x)

/-- Entry-wise order used for sortedness. -/
def entryLe (a b : VidEntry) : Prop := strLe a.timestamp b.timestamp = true

theorem insertTs_sorted (x : VidEntry) (l : List VidEntry)
    (h : l.Pairwise entryLe) : (insertTs x l).Pairwise entryLe := by
  induction l with
  | nil => simp [insertTs, List.pairwise_cons]
  | cons y ys ih =>
    rcases List.pairwise_cons.mp h with ⟨hy, hys⟩
    by_cases hc : strLe x.timestamp y.timestamp = true
    · simp only [insertTs, hc, if_true]
      rw [List.pairwise_cons]
      constructor
      · intro z hz
        rcases List.mem_cons.mp hz with hz1 | hz1
        · subst hz1; exact hc
        · exact strLe_trans hc (hy z hz1)
      · exact h
    · have h2 : strLe x.timestamp y.timestamp = false := by simpa using hc
      simp only [insertTs, h2, Bool.false_eq_true, if_false]
      rw [List.pairwise_cons]
      refine ⟨?_, ih hys⟩
      intro z hz
      rcases List.mem_cons.mp ((insertTs_perm x ys).mem_iff.mp hz) with hz2 | hz2
      · rcases strLe_total x.timestamp y.timestamp with ht | ht
        · exact absurd ht hc
        · rw [hz2]
          exact ht
      · exact hy z hz2

theorem sortTs_sorted (l : List VidEntry) : (sortTs l).Pairwise entryLe := by
  induction l with
  | nil => simp [sortTs]
  | cons x xs ih => exact insertTs_sorted x (sortTs xs) ih

/-- Two sorted lists that are permutations of each other and have pairwise
distinct timestamps are equal. -/
theorem sorted_unique (l₁ : List VidEntry) :
    ∀ l₂ : List VidEntry, l₁.Perm l₂ → l₁.Pairwise entryLe → l₂.Pairwise entryLe →
      (l₁.map (fun e => e.timestamp)).Nodup → l₁ = l₂ := by
  induction l₁ with
  | nil =>
    intro l₂ hp _ _ _
    exact (hp.symm.eq_nil).symm
  | cons a t₁ ih =>
    intro l₂ hp hs₁ hs₂ hnd
    cases l₂ with
    | nil => exact absurd hp.eq_nil (by simp)
    | cons b t₂ =>
      have hab : a = b := by
        have ha : a ∈ b :: t₂ := hp.subset (List.mem_cons_self a t₁)
        rcases List.mem_cons.mp ha with h | h
        · exact h
        · have hb : b ∈ a :: t₁ := hp.symm.subset (List.mem_cons_self b t₂)
          rcases List.mem_cons.mp hb with h2 | h2
          · exact h2.symm
          · -- a ∈ t₂ and b ∈ t₁: then a ≤ b and b ≤ a, so equal timestamps,
            -- contradicting nodup of timestamps since b ∈ t₁.
            have h3 : entryLe a b := (List.pairwise_cons.mp hs₁).1 b h2
            have h4 : entryLe b a := (List.pairwise_cons.mp hs₂).1 a h
            have hts : a.timestamp = b.timestamp := strLe_antisymm h3 h4
            rw [List.map_cons, List.nodup_cons] at hnd
            exact absurd (hts ▸ List.mem_map.mpr ⟨b, h2, rfl⟩) hnd.1
      subst hab
      have ht : t₁.Perm t₂ := hp.cons_inv
      have := ih t₂ ht (List.pairwise_cons.mp hs₁).2 (List.pairwise_cons.mp hs₂).2
        (by rw [List.map_cons, List.nodup_cons] at hnd; exact hnd.2)
      rw [this]

/-- With pairwise distinct timestamps the stable sort is
enumeration-order-independent. -/
theorem sortTs_eq_of_perm (l₁ l₂ : List VidEntry) (hp : l₁.Perm l₂)
    (hnd : (l₁.map (fun e => e.timestamp)).Nodup) : sortTs l₁ = sortTs l₂ := by
  apply sorted_unique
  · exact (sortTs_perm l₁).trans (hp.trans (sortTs_perm l₂).symm)
  · exact sortTs_sorted l₁
  · exact sortTs_sorted l₂
  · have hperm : ((sortTs l₁).map (fun e => e.timestamp)).Perm
        (l₁.map (fun e => e.timestamp)) := (sortTs_perm l₁).map _
    exact hperm.nodup_iff.mpr hnd

/-! ## Characterization of the emit loops -/

/-- The pairs one username contributes when no skip fires. -/
def userBlock (productDir selfieDir w : String) (pv sv : List VidEntry) : List VPair :=
  ((sortTs pv).zip (sortTs sv)).map (mkVPair productDir selfieDir w)

/-- The pairs contributed by one `productMap` entry. -/
def blockOf (productDir selfieDir : String) (sm : List (String × List VidEntry))
    (kv : String × List VidEntry) : List VPair :=
  match mapGet? sm kv.1 with
  | none => []
  | some sv => userBlock productDir selfieDir kv.1 kv.2 sv

theorem foldSlots_spec (productDir selfieDir : String) (ex : String → Bool) (w : String)
    (L : List (VidEntry × VidEntry)) :
    ∀ st : EmitState,
      (∀ p, ex p = true) →
      (∀ ab ∈ L, pjoin productDir ab.1.file ∉ st.usedP) →
      (∀ ab ∈ L, pjoin selfieDir ab.2.file ∉ st.usedS) →
      (L.map (fun ab => pjoin productDir ab.1.file)).Nodup →
      (L.map (fun ab => pjoin selfieDir ab.2.file)).Nodup →
      L.foldl (emitSlot productDir selfieDir ex w) st =
        { pairs := st.pairs ++ L.map (mkVPair productDir selfieDir w),
          usedP := st.usedP ++ L.map (fun ab => pjoin productDir ab.1.file),
          usedS := st.usedS ++ L.map (fun ab => pjoin selfieDir ab.2.file),
          processed := st.processed } := by
  induction L with
  | nil =>
    intro st _ _ _ _ _
    simp
  | cons ab L ih =>
    intro st hex hA hB hAnd hBnd
    have hA0 : pjoin productDir ab.1.file ∉ st.usedP := hA ab (List.mem_cons_self _ _)
    have hB0 : pjoin selfieDir ab.2.file ∉ st.usedS := hB ab (List.mem_cons_self _ _)
    have hstep : emitSlot productDir selfieDir ex w st ab =
        { pairs := st.pairs ++ [mkVPair productDir selfieDir w ab],
          usedP := st.usedP ++ [pjoin productDir ab.1.file],
          usedS := st.usedS ++ [pjoin selfieDir ab.2.file],
          processed := st.processed } := by
      simp only [emitSlot]
      rw [if_neg (by
        rintro (h | h)
        · exact hA0 h
        · exact hB0 h)]
      rw [if_pos (by rw [hex, hex]; rfl)]
    rw [List.foldl_cons, hstep]
    rw [List.map_cons, List.nodup_cons] at hAnd hBnd
    rw [ih _ hex
      (by
        intro ab2 h2
        simp only [List.mem_append, List.mem_singleton]
        rintro (h3 | h3)
        · exact hA ab2 (List.mem_cons_of_mem _ h2) h3
        · exact hAnd.1 (h3 ▸ List.mem_map.mpr ⟨ab2, h2, rfl⟩))
      (by
        intro ab2 h2
        simp only [List.mem_append, List.mem_singleton]
        rintro (h3 | h3)
        · exact hB ab2 (List.mem_cons_of_mem _ h2) h3
        · exact hBnd.1 (h3 ▸ List.mem_map.mpr ⟨ab2, h2, rfl⟩))
      hAnd.2 hBnd.2]
    simp

theorem userBlock_map_video1 (productDir selfieDir w : String) (pv sv : List VidEntry) :
    (userBlock productDir selfieDir w pv sv).map (fun q => q.video1) =
      ((sortTs pv).zip (sortTs sv)).map (fun ab => pjoin productDir ab.1.file) := by
  simp only [userBlock, List.map_map]
  apply List.map_congr_left
  intro ab _
  rfl

theorem userBlock_map_video2 (productDir selfieDir w : String) (pv sv : List VidEntry) :
    (userBlock productDir selfieDir w pv sv).map (fun q => q.video2) =
      ((sortTs pv).zip (sortTs sv)).map (fun ab => pjoin selfieDir ab.2.file) := by
  simp only [userBlock, List.map_map]
  apply List.map_congr_left
  intro ab _
  rfl

/-- The usernames marked processed: those present in both maps. -/
def processedOf (sm : List (String × List VidEntry))
    (pm : List (String × List VidEntry)) : List String :=
  pm.filterMap (fun kv =>
    match mapGet? sm kv.1 with
    | none => none
    | some _ => some kv.1)

theorem emitAllFrom_spec (productDir selfieDir : String) (ex : String → Bool)
    (sm : List (String × List VidEntry)) (pm : List (String × List VidEntry)) :
    ∀ st : EmitState, (∀ p, ex p = true) →
      (∀ q ∈ pm.flatMap (blockOf productDir selfieDir sm), q.video1 ∉ st.usedP) →
      (∀ q ∈ pm.flatMap (blockOf productDir selfieDir sm), q.video2 ∉ st.usedS) →
      ((pm.flatMap (blockOf productDir selfieDir sm)).map (fun q => q.video1)).Nodup →
      ((pm.flatMap (blockOf productDir selfieDir sm)).map (fun q => q.video2)).Nodup →
      pm.foldl
        (fun st kv =>
          match mapGet? sm kv.1 with
          | none => st
          | some sv =>
            let st2 := emitForUser productDir selfieDir ex kv.1 kv.2 sv st
            { st2 with processed := st2.processed ++ [kv.1] }) st =
      { pairs := st.pairs ++ pm.flatMap (blockOf productDir selfieDir sm),
        usedP := st.usedP ++ (pm.flatMap (blockOf productDir selfieDir sm)).map (fun q => q.video1),
        usedS := st.usedS ++ (pm.flatMap (blockOf productDir selfieDir sm)).map (fun q => q.video2),
        processed := st.processed ++ processedOf sm pm } := by
  induction pm with
  | nil =>
    intro st _ _ _ _ _
    simp [processedOf]
  | cons kv rest ih =>
    intro st hex hA hB hAnd hBnd
    rcases hsv : mapGet? sm kv.1 with _ | sv
    · have hblk : blockOf productDir selfieDir sm kv = [] := by
        simp [blockOf, hsv]
      rw [List.foldl_cons]
      have hstep :
          (match mapGet? sm kv.1 with
            | none => st
            | some sv =>
              let st2 := emitForUser productDir selfieDir ex kv.1 kv.2 sv st
              { st2 with processed := st2.processed ++ [kv.1] }) = st := by
        rw [hsv]
      rw [hstep]
      rw [List.flatMap_cons, hblk, List.nil_append] at hA hB hAnd hBnd
      rw [ih st hex hA hB hAnd hBnd]
      have hpo : processedOf sm (kv :: rest) = processedOf sm rest := by
        simp [processedOf, List.filterMap_cons, hsv]
      rw [hpo, List.flatMap_cons, hblk, List.nil_append]
    · have hblk : blockOf productDir selfieDir sm kv =
          userBlock productDir selfieDir kv.1 kv.2 sv := by
        simp [blockOf, hsv]
      rw [List.flatMap_cons] at hA hB hAnd hBnd
      rw [List.map_append] at hAnd hBnd
      have hAnd1 := (List.nodup_append.mp hAnd).1
      have hAnd2 := (List.nodup_append.mp hAnd).2.1
      have hAndD := (List.nodup_append.mp hAnd).2.2
      have hBnd1 := (List.nodup_append.mp hBnd).1
      have hBnd2 := (List.nodup_append.mp hBnd).2.1
      have hBndD := (List.nodup_append.mp hBnd).2.2
      rw [List.foldl_cons]
      have hfs := foldSlots_spec productDir selfieDir ex kv.1
        ((sortTs kv.2).zip (sortTs sv)) st hex
        (by
          intro ab hab
          have : (mkVPair productDir selfieDir kv.1 ab).video1 ∉ st.usedP := by
            apply hA
            rw [List.mem_append]
            left
            rw [hblk]
            exact List.mem_map.mpr ⟨ab, hab, rfl⟩
          exact this)
        (by
          intro ab hab
          have : (mkVPair productDir selfieDir kv.1 ab).video2 ∉ st.usedS := by
            apply hB
            rw [List.mem_append]
            left
            rw [hblk]
            exact List.mem_map.mpr ⟨ab, hab, rfl⟩
          exact this)
        (by
          have := hAnd1
          rw [hblk, userBlock_map_video1] at this
          exact this)
        (by
          have := hBnd1
          rw [hblk, userBlock_map_video2] at this
          exact this)
      have hstep :
          (match mapGet? sm kv.1 with
            | none => st
            | some sv =>
              let st2 := emitForUser productDir selfieDir ex kv.1 kv.2 sv st
              { st2 with processed := st2.processed ++ [kv.1] }) =
          { pairs := st.pairs ++ userBlock productDir selfieDir kv.1 kv.2 sv,
            usedP := st.usedP ++ (blockOf productDir selfieDir sm kv).map (fun q => q.video1),
            usedS := st.usedS ++ (blockOf productDir selfieDir sm kv).map (fun q => q.video2),
            processed := st.processed ++ [kv.1] } := by
        rw [hsv]
        show ({ (emitForUser productDir selfieDir ex kv.1 kv.2 sv st) with
            processed := (emitForUser productDir selfieDir ex kv.1 kv.2 sv st).processed
              ++ [kv.1] } : EmitState) = _
        rw [show emitForUser productDir selfieDir ex kv.1 kv.2 sv st =
            ((sortTs kv.2).zip (sortTs sv)).foldl
              (emitSlot productDir selfieDir ex kv.1) st from rfl]
        rw [hfs]
        rw [hblk, userBlock_map_video1, userBlock_map_video2]
        rfl
      rw [hstep]
      rw [ih _ hex
        (by
          intro q hq
          rw [List.mem_append]
          rintro (h | h)
          · exact hA q (List.mem_append.mpr (Or.inr hq)) h
          · exact hAndD h (List.mem_map.mpr ⟨q, hq, rfl⟩))
        (by
          intro q hq
          rw [List.mem_append]
          rintro (h | h)
          · exact hB q (List.mem_append.mpr (Or.inr hq)) h
          · exact hBndD h (List.mem_map.mpr ⟨q, hq, rfl⟩))
        hAnd2 hBnd2]
      have hpo : processedOf sm (kv :: rest) = kv.1 :: processedOf sm rest := by
        simp [processedOf, List.filterMap_cons, hsv]
      rw [hpo, List.flatMap_cons, hblk]
      simp [List.map_append]

/-- The full characterization of `emitAll` under distinctness and existence. -/
theorem emitAll_spec (productDir selfieDir : String) (ex : String → Bool)
    (pm sm : List (String × List VidEntry))
    (hex : ∀ p, ex p = true)
    (hAnd : ((pm.flatMap (blockOf productDir selfieDir sm)).map (fun q => q.video1)).Nodup)
    (hBnd : ((pm.flatMap (blockOf productDir selfieDir sm)).map (fun q => q.video2)).Nodup) :
    emitAll productDir selfieDir ex pm sm =
      { pairs := pm.flatMap (blockOf productDir selfieDir sm),
        usedP := (pm.flatMap (blockOf productDir selfieDir sm)).map (fun q => q.video1),
        usedS := (pm.flatMap (blockOf productDir selfieDir sm)).map (fun q => q.video2),
        processed := processedOf sm pm } := by
  have := emitAllFrom_spec productDir selfieDir ex sm pm initES hex
    (by intro q _ h; simp [initES] at h)
    (by intro q _ h; simp [initES] at h)
    hAnd hBnd
  simpa [emitAll, initES] using this

theorem pjoin_inj (d : String) {a b : String} (h : pjoin d a = pjoin d b) : a = b := by
  have hd : (pjoin d a).data = (pjoin d b).data := by rw [h]
  simp only [pjoin] at hd
  have h2 : (d ++ "/").data ++ a.data = (d ++ "/").data ++ b.data := by
    simpa [string_data_append, List.append_assoc] using hd
  have h3 := List.append_cancel_left h2
  cases a; cases b
  exact congrArg String.mk h3

theorem zip_map_fst_sublist {α β : Type} (l₁ : List α) (l₂ : List β) :
    ((l₁.zip l₂).map Prod.fst).Sublist l₁ := by
  induction l₁ generalizing l₂ with
  | nil => simp
  | cons x xs ih =>
    cases l₂ with
    | nil => simp
    | cons y ys =>
      simpa [List.zip_cons_cons] using (ih ys).cons₂ x

theorem zip_map_snd_sublist {α β : Type} (l₁ : List α) (l₂ : List β) :
    ((l₁.zip l₂).map Prod.snd).Sublist l₂ := by
  induction l₁ generalizing l₂ with
  | nil => simp
  | cons x xs ih =>
    cases l₂ with
    | nil => simp
    | cons y ys =>
      simpa [List.zip_cons_cons] using (ih ys).cons₂ y

/-- Every entry of `buildMap` carries exactly the files of its username. -/
theorem mem_buildMap_group (files : List String) (kv : String × List VidEntry)
    (h : kv ∈ buildMap files) :
    kv.2 = (files.filter (fun x => decide (extractUsername x = kv.1))).map
      (fun f => VidEntry.mk f (extractTimestamp f)) := by
  have hget := mapGet?_of_mem (buildMap files) (mapKeys_buildMap_nodup files) kv h
  have hchar := mapGet?_buildMap files kv.1
  rw [hget] at hchar
  rcases hfil : files.filter (fun x => decide (extractUsername x = kv.1)) with _ | ⟨f, fs⟩
  · rw [hfil] at hchar
    simp at hchar
  · rw [hfil] at hchar
    simp only [if_neg (by simp : ¬ (f :: fs = []))] at hchar
    exact Option.some_injective _ hchar

/-- The `video1` fields of all emitted blocks are distinct when the product
listing has no duplicates. -/
theorem blocks_video1_nodup (productDir selfieDir : String) (PV SV : List String)
    (hnd : PV.Nodup) :
    (((buildMap PV).flatMap (blockOf productDir selfieDir (buildMap SV))).map
      (fun q => q.video1)).Nodup := by
  rw [List.map_flatMap]
  rw [List.nodup_flatMap]
  constructor
  · intro kv hkv
    rcases hsv : mapGet? (buildMap SV) kv.1 with _ | sv
    · simp [blockOf, hsv]
    · have hblk : blockOf productDir selfieDir (buildMap SV) kv =
          userBlock productDir selfieDir kv.1 kv.2 sv := by simp [blockOf, hsv]
      rw [hblk, userBlock_map_video1]
      have hgroup := mem_buildMap_group PV kv hkv
      -- the zipped first components form a sublist of the sorted group
      have hsub : (((sortTs kv.2).zip (sortTs sv)).map Prod.fst).Sublist (sortTs kv.2) :=
        zip_map_fst_sublist _ _
      have hmapsub : ((((sortTs kv.2).zip (sortTs sv)).map Prod.fst).map
          (fun e => pjoin productDir e.file)).Sublist
          ((sortTs kv.2).map (fun e => pjoin productDir e.file)) := hsub.map _
      have hbig : ((sortTs kv.2).map (fun e => pjoin productDir e.file)).Nodup := by
        have hperm : ((sortTs kv.2).map (fun e => pjoin productDir e.file)).Perm
            (kv.2.map (fun e => pjoin productDir e.file)) := (sortTs_perm kv.2).map _
        rw [hperm.nodup_iff, hgroup, List.map_map]
        have : ((PV.filter (fun x => decide (extractUsername x = kv.1))).map
            ((fun e => pjoin productDir e.file) ∘ (fun f => VidEntry.mk f (extractTimestamp f))))
            = (PV.filter (fun x => decide (extractUsername x = kv.1))).map
              (fun f => pjoin productDir f) := by
          apply List.map_congr_left
          intro f _
          rfl
        rw [this]
        exact (hnd.filter _).map (by
          intro a b h
          exact pjoin_inj productDir h)
      have : (((sortTs kv.2).zip (sortTs sv)).map (fun ab => pjoin productDir ab.1.file)) =
          ((((sortTs kv.2).zip (sortTs sv)).map Prod.fst).map
            (fun e => pjoin productDir e.file)) := by
        rw [List.map_map]
        rfl
      rw [this]
      exact hbig.sublist hmapsub
  · -- distinct usernames give disjoint path sets
    have hkeys : (buildMap PV).Pairwise (fun a b => a.1 ≠ b.1) := by
      have := mapKeys_buildMap_nodup PV
      rw [List.Nodup, List.pairwise_map] at this
      exact this
    apply List.Pairwise.imp_of_mem ?_ hkeys
    intro kv kv' hkvm hkvm' hne p hp hp'
    -- membership gives a source file with the entry's username for each side
    have hsrc : ∀ (kw : String × List VidEntry), kw ∈ buildMap PV →
        ∀ q ∈ (blockOf productDir selfieDir (buildMap SV) kw).map (fun q => q.video1),
          ∃ f, extractUsername f = kw.1 ∧ q = pjoin productDir f := by
      intro kw hkw q hq
      rcases hsv : mapGet? (buildMap SV) kw.1 with _ | sv
      · simp [blockOf, hsv] at hq
      · have hblk : blockOf productDir selfieDir (buildMap SV) kw =
            userBlock productDir selfieDir kw.1 kw.2 sv := by simp [blockOf, hsv]
        rw [hblk, userBlock_map_video1] at hq
        obtain ⟨ab, hab, habe⟩ := List.mem_map.mp hq
        have h1 : ab.1 ∈ sortTs kw.2 := by
          have hm : ab.1 ∈ ((sortTs kw.2).zip (sortTs sv)).map Prod.fst :=
            List.mem_map.mpr ⟨ab, hab, rfl⟩
          exact (zip_map_fst_sublist (sortTs kw.2) (sortTs sv)).subset hm
        have h2 : ab.1 ∈ kw.2 := (sortTs_perm kw.2).subset h1
        have hgroup := mem_buildMap_group PV kw hkw
        rw [hgroup] at h2
        obtain ⟨f, hf, hfe⟩ := List.mem_map.mp h2
        refine ⟨f, ?_, ?_⟩
        · have := List.mem_filter.mp hf
          simpa using this.2
        · rw [← habe, ← hfe]
    obtain ⟨f, hf1, hf2⟩ := hsrc kv hkvm p hp
    obtain ⟨f', hf1', hf2'⟩ := hsrc kv' hkvm' p hp'
    have hff : f = f' := pjoin_inj productDir (hf2.symm.trans hf2')
    exact hne (hf1.symm.trans ((congrArg extractUsername hff).trans hf1'))

theorem mapGet?_buildMap_some (files : List String) (w : String) (sv : List VidEntry)
    (h : mapGet? (buildMap files) w = some sv) :
    sv = (files.filter (fun x => decide (extractUsername x = w))).map
      (fun f => VidEntry.mk f (extractTimestamp f)) := by
  have hchar := mapGet?_buildMap files w
  rw [h] at hchar
  rcases hfil : files.filter (fun x => decide (extractUsername x = w)) with _ | ⟨f, fs⟩
  · rw [hfil] at hchar
    simp at hchar
  · rw [hfil] at hchar
    simp only [if_neg (by simp : ¬ (f :: fs = []))] at hchar
    exact Option.some_injective _ hchar

/-- The `video2` fields of all emitted blocks are distinct when the selfie
listing has no duplicates. -/
theorem blocks_video2_nodup (productDir selfieDir : String) (PV SV : List String)
    (hnd : SV.Nodup) :
    (((buildMap PV).flatMap (blockOf productDir selfieDir (buildMap SV))).map
      (fun q => q.video2)).Nodup := by
  rw [List.map_flatMap]
  rw [List.nodup_flatMap]
  constructor
  · intro kv hkv
    rcases hsv : mapGet? (buildMap SV) kv.1 with _ | sv
    · simp [blockOf, hsv]
    · have hblk : blockOf productDir selfieDir (buildMap SV) kv =
          userBlock productDir selfieDir kv.1 kv.2 sv := by simp [blockOf, hsv]
      rw [hblk, userBlock_map_video2]
      have hgroup := mapGet?_buildMap_some SV kv.1 sv hsv
      have hsub : (((sortTs kv.2).zip (sortTs sv)).map Prod.snd).Sublist (sortTs sv) :=
        zip_map_snd_sublist _ _
      have hmapsub : ((((sortTs kv.2).zip (sortTs sv)).map Prod.snd).map
          (fun e => pjoin selfieDir e.file)).Sublist
          ((sortTs sv).map (fun e => pjoin selfieDir e.file)) := hsub.map _
      have hbig : ((sortTs sv).map (fun e => pjoin selfieDir e.file)).Nodup := by
        have hperm : ((sortTs sv).map (fun e => pjoin selfieDir e.file)).Perm
            (sv.map (fun e => pjoin selfieDir e.file)) := (sortTs_perm sv).map _
        rw [hperm.nodup_iff, hgroup, List.map_map]
        have : ((SV.filter (fun x => decide (extractUsername x = kv.1))).map
            ((fun e => pjoin selfieDir e.file) ∘ (fun f => VidEntry.mk f (extractTimestamp f))))
            = (SV.filter (fun x => decide (extractUsername x = kv.1))).map
              (fun f => pjoin selfieDir f) := by
          apply List.map_congr_left
          intro f _
          rfl
        rw [this]
        exact (hnd.filter _).map (by
          intro a b h
          exact pjoin_inj selfieDir h)
      have : (((sortTs kv.2).zip (sortTs sv)).map (fun ab => pjoin selfieDir ab.2.file)) =
          ((((sortTs kv.2).zip (sortTs sv)).map Prod.snd).map
            (fun e => pjoin selfieDir e.file)) := by
        rw [List.map_map]
        rfl
      rw [this]
      exact hbig.sublist hmapsub
  · have hkeys : (buildMap PV).Pairwise (fun a b => a.1 ≠ b.1) := by
      have := mapKeys_buildMap_nodup PV
      rw [List.Nodup, List.pairwise_map] at this
      exact this
    apply List.Pairwise.imp_of_mem ?_ hkeys
    intro kv kv' hkvm hkvm' hne p hp hp'
    have hsrc : ∀ (kw : String × List VidEntry), kw ∈ buildMap PV →
        ∀ q ∈ (blockOf productDir selfieDir (buildMap SV) kw).map (fun q => q.video2),
          ∃ f, extractUsername f = kw.1 ∧ q = pjoin selfieDir f := by
      intro kw hkw q hq
      rcases hsv : mapGet? (buildMap SV) kw.1 with _ | sv
      · simp [blockOf, hsv] at hq
      · have hblk : blockOf productDir selfieDir (buildMap SV) kw =
            userBlock productDir selfieDir kw.1 kw.2 sv := by simp [blockOf, hsv]
        rw [hblk, userBlock_map_video2] at hq
        obtain ⟨ab, hab, habe⟩ := List.mem_map.mp hq
        have h1 : ab.2 ∈ sortTs sv := by
          have hm : ab.2 ∈ ((sortTs kw.2).zip (sortTs sv)).map Prod.snd :=
            List.mem_map.mpr ⟨ab, hab, rfl⟩
          exact (zip_map_snd_sublist (sortTs kw.2) (sortTs sv)).subset hm
        have h2 : ab.2 ∈ sv := (sortTs_perm sv).subset h1
        have hgroup := mapGet?_buildMap_some SV kw.1 sv hsv
        rw [hgroup] at h2
        obtain ⟨f, hf, hfe⟩ := List.mem_map.mp h2
        refine ⟨f, ?_, ?_⟩
        · have := List.mem_filter.mp hf
          simpa using this.2
        · rw [← habe, ← hfe]
    obtain ⟨f, hf1, hf2⟩ := hsrc kv hkvm p hp
    obtain ⟨f', hf1', hf2'⟩ := hsrc kv' hkvm' p hp'
    have hff : f = f' := pjoin_inj selfieDir (hf2.symm.trans hf2')
    exact hne (hf1.symm.trans ((congrArg extractUsername hff).trans hf1'))

theorem mem_blockOf_username (productDir selfieDir : String)
    (sm : List (String × List VidEntry)) (kv : String × List VidEntry) (q : VPair)
    (h : q ∈ blockOf productDir selfieDir sm kv) : q.username = kv.1 := by
  rcases hsv : mapGet? sm kv.1 with _ | sv
  · simp [blockOf, hsv] at h
  · rw [show blockOf productDir selfieDir sm kv =
        userBlock productDir selfieDir kv.1 kv.2 sv by simp [blockOf, hsv]] at h
    obtain ⟨ab, _, habe⟩ := List.mem_map.mp h
    rw [← habe]
    rfl

theorem filter_flatMap_eq_block (productDir selfieDir : String)
    (sm : List (String × List VidEntry)) (pm : List (String × List VidEntry)) (w : String)
    (kv : String × List VidEntry)
    (hknd : (pm.map (fun kv => kv.1)).Nodup) (hkv : kv ∈ pm) (hw : kv.1 = w) :
    (pm.flatMap (blockOf productDir selfieDir sm)).filter
        (fun q => decide (q.username = w)) =
      blockOf productDir selfieDir sm kv := by
  induction pm with
  | nil => simp at hkv
  | cons kv0 rest ih =>
    rw [List.map_cons, List.nodup_cons] at hknd
    rw [List.flatMap_cons, List.filter_append]
    rcases List.mem_cons.mp hkv with hh | hh
    · subst hh
      have h1 : (blockOf productDir selfieDir sm kv).filter
          (fun q => decide (q.username = w)) = blockOf productDir selfieDir sm kv := by
        rw [List.filter_eq_self]
        intro q hq
        simp only [decide_eq_true_eq]
        rw [mem_blockOf_username productDir selfieDir sm kv q hq, hw]
      have h2 : (rest.flatMap (blockOf productDir selfieDir sm)).filter
          (fun q => decide (q.username = w)) = [] := by
        rw [List.filter_eq_nil_iff]
        intro q hq
        simp only [decide_eq_true_eq]
        obtain ⟨kv', hkv', hq'⟩ := List.mem_flatMap.mp hq
        rw [mem_blockOf_username productDir selfieDir sm kv' q hq']
        intro hc
        exact hknd.1 ((hc.trans hw.symm) ▸ List.mem_map.mpr ⟨kv', hkv', rfl⟩)
      rw [h1, h2, List.append_nil]
    · have h1 : (blockOf productDir selfieDir sm kv0).filter
          (fun q => decide (q.username = w)) = [] := by
        rw [List.filter_eq_nil_iff]
        intro q hq
        simp only [decide_eq_true_eq]
        rw [mem_blockOf_username productDir selfieDir sm kv0 q hq]
        intro hc
        exact hknd.1 ((hc.trans hw.symm).symm ▸ (hw ▸ List.mem_map.mpr ⟨kv, hh, hw⟩))
      rw [h1, List.nil_append]
      exact ih hknd.2 hh

theorem blockOf_length (productDir selfieDir : String) (sm : List (String × List VidEntry))
    (kv : String × List VidEntry) (sv : List VidEntry) (hsv : mapGet? sm kv.1 = some sv) :
    (blockOf productDir selfieDir sm kv).length = min kv.2.length sv.length := by
  simp [blockOf, hsv, userBlock, List.length_zip,
    (sortTs_perm kv.2).length_eq, (sortTs_perm sv).length_eq]

theorem findVideoPairsState_eq (sourceDir : String) (pf sf : List String)
    (ex : String → Bool)
    (hP : pf.filter isVideoFile ≠ []) (hS : sf.filter isVideoFile ≠ []) :
    findVideoPairsState sourceDir pf sf ex =
      emitAll (pjoin sourceDir "product") (pjoin sourceDir "selfie") ex
        (buildMap (pf.filter isVideoFile)) (buildMap (sf.filter isVideoFile)) := by
  rw [findVideoPairsState]
  rw [if_neg]
  simp only [Bool.or_eq_true, List.isEmpty_iff]
  rintro (h | h)
  · exact hP h
  · exact hS h

/-- The pair list under no-duplicate listings and a fully-live filesystem is
exactly the concatenation of the per-username blocks. -/
theorem findVideoPairsModel_eq_blocks (sourceDir : String) (pf sf : List String)
    (ex : String → Bool)
    (hp : pf.Nodup) (hs : sf.Nodup) (hex : ∀ p, ex p = true)
    (hP : pf.filter isVideoFile ≠ []) (hS : sf.filter isVideoFile ≠ []) :
    findVideoPairsModel sourceDir pf sf ex =
      (buildMap (pf.filter isVideoFile)).flatMap
        (blockOf (pjoin sourceDir "product") (pjoin sourceDir "selfie")
          (buildMap (sf.filter isVideoFile))) := by
  rw [findVideoPairsModel, findVideoPairsState_eq sourceDir pf sf ex hP hS]
  rw [emitAll_spec _ _ ex _ _ hex
    (blocks_video1_nodup _ _ _ _ (hp.filter _))
    (blocks_video2_nodup _ _ _ _ (hs.filter _))]

/-- Claim C6, general part, as a standalone lemma shared by the claim theorem. -/
theorem pairs_count_min (sourceDir : String) (pf sf : List String) (ex : String → Bool)
    (w : String)
    (hp : pf.Nodup) (hs : sf.Nodup) (hex : ∀ p, ex p = true)
    (hwP : w ∈ (pf.filter isVideoFile).map extractUsername)
    (hwS : w ∈ (sf.filter isVideoFile).map extractUsername) :
    ((findVideoPairsModel sourceDir pf sf ex).filter
        (fun q => decide (q.username = w))).length =
      min ((pf.filter isVideoFile).filter
            (fun f => decide (extractUsername f = w))).length
          ((sf.filter isVideoFile).filter
            (fun f => decide (extractUsername f = w))).length := by
  have hP : pf.filter isVideoFile ≠ [] := by
    obtain ⟨x, hx, _⟩ := List.mem_map.mp hwP
    exact List.ne_nil_of_mem hx
  have hS : sf.filter isVideoFile ≠ [] := by
    obtain ⟨x, hx, _⟩ := List.mem_map.mp hwS
    exact List.ne_nil_of_mem hx
  rw [findVideoPairsModel_eq_blocks sourceDir pf sf ex hp hs hex hP hS]
  have hwk : w ∈ (buildMap (pf.filter isVideoFile)).map (fun kv => kv.1) :=
    (mapKeys_buildMap_mem _ w).mpr hwP
  obtain ⟨kv, hkv, hkw⟩ := List.mem_map.mp hwk
  have hsnot : ¬ mapGet? (buildMap (sf.filter isVideoFile)) w = none := by
    rw [mapGet?_eq_none_iff]
    intro hc
    exact hc ((mapKeys_buildMap_mem _ w).mpr hwS)
  rcases hsv : mapGet? (buildMap (sf.filter isVideoFile)) w with _ | sv
  · exact absurd hsv hsnot
  · rw [filter_flatMap_eq_block _ _ _ _ w kv (mapKeys_buildMap_nodup _) hkv hkw]
    rw [blockOf_length _ _ _ kv sv (by rw [hkw]; exact hsv)]
    have hlen1 : kv.2.length =
        ((pf.filter isVideoFile).filter
          (fun f => decide (extractUsername f = w))).length := by
      rw [mem_buildMap_group _ kv hkv, List.length_map, hkw]
    have hlen2 : sv.length =
        ((sf.filter isVideoFile).filter
          (fun f => decide (extractUsername f = w))).length := by
      rw [mapGet?_buildMap_some _ _ _ hsv, List.length_map]
    rw [hlen1, hlen2]

theorem flatMap_congr_mem {α β : Type} (l : List α) (f g : α → List β)
    (h : ∀ a ∈ l, f a = g a) : l.flatMap f = l.flatMap g := by
  induction l with
  | nil => rfl
  | cons x xs ih =>
    rw [List.flatMap_cons, List.flatMap_cons, h x (List.mem_cons_self x xs),
      ih (fun a ha => h a (List.mem_cons_of_mem x ha))]

theorem flatMap_map_comp {α β γ : Type} (l : List α) (f : α → β) (g : β → List γ) :
    (l.map f).flatMap g = l.flatMap (fun a => g (f a)) := by
  induction l with
  | nil => rfl
  | cons x xs ih =>
    rw [List.map_cons, List.flatMap_cons, List.flatMap_cons, ih]

/-- The contribution of one username is invariant under re-enumerating the two
listings, provided ordering keys are distinct within each identity group. -/
theorem blockEval_eq (productDir selfieDir : String) (PV1 PV2 SV1 SV2 : List String)
    (hPVp : PV1.Perm PV2) (hSVp : SV1.Perm SV2)
    (htsP : ∀ u, ((PV1.filter (fun f => decide (extractUsername f = u))).map
      extractTimestamp).Nodup)
    (htsS : ∀ u, ((SV1.filter (fun f => decide (extractUsername f = u))).map
      extractTimestamp).Nodup)
    (w : String) :
    blockOf productDir selfieDir (buildMap SV1) (w, (mapGet? (buildMap PV1) w).getD []) =
      blockOf productDir selfieDir (buildMap SV2) (w, (mapGet? (buildMap PV2) w).getD []) := by
  have hentry : ∀ (L1 L2 : List String), L1.Perm L2 →
      (((L1.filter (fun f => decide (extractUsername f = w))).map
        extractTimestamp).Nodup) →
      sortTs ((L1.filter (fun f => decide (extractUsername f = w))).map
        (fun f => VidEntry.mk f (extractTimestamp f))) =
      sortTs ((L2.filter (fun f => decide (extractUsername f = w))).map
        (fun f => VidEntry.mk f (extractTimestamp f))) := by
    intro L1 L2 hLp hts
    apply sortTs_eq_of_perm
    · exact (hLp.filter _).map _
    · rw [List.map_map]
      have : ((L1.filter (fun f => decide (extractUsername f = w))).map
          ((fun e => e.timestamp) ∘ (fun f => VidEntry.mk f (extractTimestamp f)))) =
          ((L1.filter (fun f => decide (extractUsername f = w))).map extractTimestamp) := by
        apply List.map_congr_left
        intro f _
        rfl
      rw [this]
      exact hts
  have hG : sortTs ((mapGet? (buildMap PV1) w).getD []) =
      sortTs ((mapGet? (buildMap PV2) w).getD []) := by
    rcases hp1 : mapGet? (buildMap PV1) w with _ | g1
    · have hp2 : mapGet? (buildMap PV2) w = none := by
        rw [mapGet?_eq_none_iff] at hp1 ⊢
        rw [mapKeys_buildMap_mem] at hp1 ⊢
        intro hc
        exact hp1 ((hPVp.map extractUsername).mem_iff.mpr hc)
      rw [hp2]
    · have hp2some : ¬ mapGet? (buildMap PV2) w = none := by
        rw [mapGet?_eq_none_iff, mapKeys_buildMap_mem]
        intro hc
        have h1 : w ∈ PV1.map extractUsername := by
          rw [← mapKeys_buildMap_mem]
          by_contra hc
          rw [← mapGet?_eq_none_iff] at hc
          rw [hp1] at hc
          simp at hc
        exact hc ((hPVp.map extractUsername).mem_iff.mp h1)
      rcases hp2 : mapGet? (buildMap PV2) w with _ | g2
      · exact absurd hp2 hp2some
      · rw [Option.getD_some, Option.getD_some]
        rw [mapGet?_buildMap_some PV1 w g1 hp1, mapGet?_buildMap_some PV2 w g2 hp2]
        exact hentry PV1 PV2 hPVp (htsP w)
  rcases hs1 : mapGet? (buildMap SV1) w with _ | sv1
  · have hs2 : mapGet? (buildMap SV2) w = none := by
      rw [mapGet?_eq_none_iff] at hs1 ⊢
      rw [mapKeys_buildMap_mem] at hs1 ⊢
      intro hc
      exact hs1 ((hSVp.map extractUsername).mem_iff.mpr hc)
    simp [blockOf, hs1, hs2]
  · have hs2some : ¬ mapGet? (buildMap SV2) w = none := by
      rw [mapGet?_eq_none_iff, mapKeys_buildMap_mem]
      intro hc
      have h1 : w ∈ SV1.map extractUsername := by
        rw [← mapKeys_buildMap_mem]
        by_contra hc
        rw [← mapGet?_eq_none_iff] at hc
        rw [hs1] at hc
        simp at hc
      exact hc ((hSVp.map extractUsername).mem_iff.mp h1)
    rcases hs2 : mapGet? (buildMap SV2) w with _ | sv2
    · exact absurd hs2 hs2some
    · have hsv : sortTs sv1 = sortTs sv2 := by
        rw [mapGet?_buildMap_some SV1 w sv1 hs1, mapGet?_buildMap_some SV2 w sv2 hs2]
        exact hentry SV1 SV2 hSVp (htsS w)
      simp only [blockOf, hs1, hs2]
      rw [userBlock, userBlock, hG, hsv]

/-- Enumeration-order independence up to permutation, under distinct ordering
keys within every identity group. -/
theorem findVideoPairsModel_perm (sourceDir : String) (pf1 pf2 sf1 sf2 : List String)
    (ex : String → Bool)
    (hpp : pf1.Perm pf2) (hsp : sf1.Perm sf2)
    (hp : pf1.Nodup) (hs : sf1.Nodup) (hex : ∀ p, ex p = true)
    (htsP : ∀ u, (((pf1.filter isVideoFile).filter
      (fun f => decide (extractUsername f = u))).map extractTimestamp).Nodup)
    (htsS : ∀ u, (((sf1.filter isVideoFile).filter
      (fun f => decide (extractUsername f = u))).map extractTimestamp).Nodup) :
    (findVideoPairsModel sourceDir pf1 sf1 ex).Perm
      (findVideoPairsModel sourceDir pf2 sf2 ex) := by
  have hPVp : (pf1.filter isVideoFile).Perm (pf2.filter isVideoFile) := hpp.filter _
  have hSVp : (sf1.filter isVideoFile).Perm (sf2.filter isVideoFile) := hsp.filter _
  by_cases hPe : pf1.filter isVideoFile = []
  · have hPe2 : pf2.filter isVideoFile = [] := by
      have h2 := hPVp
      rw [hPe] at h2
      exact h2.symm.eq_nil
    have h1 : findVideoPairsModel sourceDir pf1 sf1 ex = [] := by
      simp [findVideoPairsModel, findVideoPairsState, List.isEmpty_iff, hPe, initES]
    have h2 : findVideoPairsModel sourceDir pf2 sf2 ex = [] := by
      simp [findVideoPairsModel, findVideoPairsState, List.isEmpty_iff, hPe2, initES]
    rw [h1, h2]
  · by_cases hSe : sf1.filter isVideoFile = []
    · have hSe2 : sf2.filter isVideoFile = [] := by
        have h2 := hSVp
        rw [hSe] at h2
        exact h2.symm.eq_nil
      have h1 : findVideoPairsModel sourceDir pf1 sf1 ex = [] := by
        simp [findVideoPairsModel, findVideoPairsState, List.isEmpty_iff, hSe, initES]
      have h2 : findVideoPairsModel sourceDir pf2 sf2 ex = [] := by
        simp [findVideoPairsModel, findVideoPairsState, List.isEmpty_iff, hSe2, initES]
      rw [h1, h2]
    · have hPe2 : pf2.filter isVideoFile ≠ [] := by
        intro hc
        apply hPe
        have h2 := hPVp
        rw [hc] at h2
        exact h2.eq_nil
      have hSe2 : sf2.filter isVideoFile ≠ [] := by
        intro hc
        apply hSe
        have h2 := hSVp
        rw [hc] at h2
        exact h2.eq_nil
      have hp2 : pf2.Nodup := hpp.nodup_iff.mp hp
      have hs2 : sf2.Nodup := hsp.nodup_iff.mp hs
      rw [findVideoPairsModel_eq_blocks sourceDir pf1 sf1 ex hp hs hex hPe hSe,
          findVideoPairsModel_eq_blocks sourceDir pf2 sf2 ex hp2 hs2 hex hPe2 hSe2]
      have hkeysperm : ((buildMap (pf1.filter isVideoFile)).map (fun kv => kv.1)).Perm
          ((buildMap (pf2.filter isVideoFile)).map (fun kv => kv.1)) := by
        rw [List.perm_ext_iff_of_nodup (mapKeys_buildMap_nodup _) (mapKeys_buildMap_nodup _)]
        intro a
        rw [mapKeys_buildMap_mem, mapKeys_buildMap_mem]
        exact (hPVp.map extractUsername).mem_iff
      conv_lhs => rw [map_eq_keysMap (buildMap (pf1.filter isVideoFile))
        (mapKeys_buildMap_nodup _), flatMap_map_comp]
      conv_rhs => rw [map_eq_keysMap (buildMap (pf2.filter isVideoFile))
        (mapKeys_buildMap_nodup _), flatMap_map_comp]
      rw [flatMap_congr_mem _ _ _
        (fun u _ => blockEval_eq _ _ _ _ _ _ hPVp hSVp htsP htsS u)]
      exact hkeysperm.flatMap_right _

/-! ## Schema lemmas for the identity extractors (claim C4) -/

theorem dropWhile_all_append (p : Char → Bool) (w z : List Char)
    (hw : ∀ c ∈ w, p c = true) : (w ++ z).dropWhile p = z.dropWhile p := by
  induction w with
  | nil => rfl
  | cons c cs ih =>
    rw [List.cons_append, List.dropWhile_cons, if_pos (hw c (List.mem_cons_self c cs))]
    exact ih (fun c2 h2 => hw c2 (List.mem_cons_of_mem c h2))

theorem trimChars_cons_ws (c : Char) (xs : List Char) (hc : isJsWs c = true) :
    trimChars (c :: xs) = trimChars xs := by
  unfold trimChars
  rw [List.dropWhile_cons, if_pos hc]

theorem trimChars_append_ws (xs w : List Char) (hw : ∀ c ∈ w, isJsWs c = true) :
    trimChars (xs ++ w) = trimChars xs := by
  unfold trimChars
  rcases hx : xs.dropWhile isJsWs with _ | ⟨d, rest⟩
  · rw [show (xs ++ w).dropWhile isJsWs = w.dropWhile isJsWs by
      rw [List.dropWhile_append]
      simp [hx]]
    rw [show w.dropWhile isJsWs = [] by
      rw [List.dropWhile_eq_nil_iff]
      exact hw]
  · rw [show (xs ++ w).dropWhile isJsWs = (d :: rest) ++ w by
      rw [List.dropWhile_append]
      simp [hx]]
    rw [show ((d :: rest) ++ w).reverse = w.reverse ++ (d :: rest).reverse by simp]
    rw [dropWhile_all_append _ _ _ (fun c h2 => hw c (by simpa using List.mem_reverse.mp h2))]

/-- `extSplit` on a name ending in `.mp4`. -/
theorem extSplit_mp4 (stem : List Char) :
    extSplit (stem ++ ['.', 'm', 'p', '4']) = some (stem, ['m', 'p', '4']) := by
  unfold extSplit
  dsimp only
  have hrev : (stem ++ ['.', 'm', 'p', '4']).reverse = ['4', 'p', 'm', '.'] ++ stem.reverse := by
    simp
  rw [hrev]
  rw [List.take_left' (by rfl), List.drop_left' (by rfl)]
  rw [if_pos rfl]
  simp

/-- `extSplit` on a name ending in `.mov`. -/
theorem extSplit_mov (stem : List Char) :
    extSplit (stem ++ ['.', 'm', 'o', 'v']) = some (stem, ['m', 'o', 'v']) := by
  unfold extSplit
  dsimp only
  have hrev : (stem ++ ['.', 'm', 'o', 'v']).reverse = ['v', 'o', 'm', '.'] ++ stem.reverse := by
    simp
  rw [hrev]
  rw [List.take_left' (by rfl), List.drop_left' (by rfl)]
  rw [if_neg (by simp), if_pos rfl]
  simp

/-- `extSplit` on a name ending in `.MOV`. -/
theorem extSplit_MOVu (stem : List Char) :
    extSplit (stem ++ ['.', 'M', 'O', 'V']) = some (stem, ['M', 'O', 'V']) := by
  unfold extSplit
  dsimp only
  have hrev : (stem ++ ['.', 'M', 'O', 'V']).reverse = ['V', 'O', 'M', '.'] ++ stem.reverse := by
    simp
  rw [hrev]
  rw [List.take_left' (by rfl), List.drop_left' (by rfl)]
  rw [if_neg (by simp), if_neg (by simp), if_pos rfl]
  simp

/-- `extSplit` on a name ending in `.TS`. -/
theorem extSplit_TSu (stem : List Char) :
    extSplit (stem ++ ['.', 'T', 'S']) = some (stem, ['T', 'S']) := by
  unfold extSplit
  dsimp only
  have hrev : (stem ++ ['.', 'T', 'S']).reverse = ['S', 'T', '.'] ++ stem.reverse := by
    simp
  rw [hrev]
  have h4 : (['S', 'T', '.'] ++ stem.reverse).take 4
      = 'S' :: 'T' :: '.' :: stem.reverse.take 1 := by
    simp
  rw [if_neg (by rw [h4]; simp), if_neg (by rw [h4]; simp), if_neg (by rw [h4]; simp)]
  rw [List.take_left' (by rfl), List.drop_left' (by rfl)]
  rw [if_pos rfl]
  simp

/-- Scanning the schema stem: the leftmost acceptable separator is the schema
dash, so the capture is the space plus the identity. -/
theorem findCapU_schema (u : List Char) (hu : u ≠ []) (hdash : '-' ∉ u) :
    ∀ p : List Char, findCapU (p ++ ' ' :: '-' :: ' ' :: u) = some (' ' :: u) := by
  intro p
  induction p with
  | nil =>
    rw [List.nil_append, findCapU]
    rw [if_neg (by
      rintro ⟨_, _, hno⟩
      exact hno (List.mem_cons_self '-' (' ' :: u)))]
    rw [findCapU]
    rw [if_pos]
    refine ⟨Or.inl rfl, by simp, ?_⟩
    intro hc
    rcases List.mem_cons.mp hc with hc2 | hc2
    · exact absurd hc2.symm (by decide)
    · exact hdash hc2
  | cons c p2 ih =>
    rw [List.cons_append, findCapU]
    rw [if_neg (by
      rintro ⟨_, _, hno⟩
      apply hno
      rw [List.mem_append]
      right
      exact List.mem_cons_of_mem _ (List.mem_cons_self '-' (' ' :: u)))]
    exact ih

/-- A suffix whose first character is neither whitespace nor a dash never
matches the separator pattern. -/
theorem tailMatchT_cons_ne (d : Char) (t : List Char) (hd : isJsWs d = false)
    (hdd : ¬ d = '-') : tailMatchT (d :: t) = false := by
  rw [tailMatchT, List.dropWhile_cons, if_neg (by simp [hd])]
  split
  · next u2 heq =>
    exact absurd (List.head_eq_of_cons_eq heq) hdd
  · rfl

theorem tailMatchT_dash (t : List Char) :
    tailMatchT ('-' :: t) = decide (t ≠ [] ∧ '-' ∉ t) := by
  rw [tailMatchT, List.dropWhile_cons, if_neg (by decide)]
  rfl

/-- A dash with the schema separator still ahead fails the dash-free check. -/
theorem tailMatchT_dash_early (rest u : List Char) :
    tailMatchT ('-' :: (rest ++ ' ' :: '-' :: ' ' :: u)) = false := by
  rw [tailMatchT_dash]
  simp only [decide_eq_false_iff_not]
  rintro ⟨_, hno⟩
  apply hno
  rw [List.mem_append]
  right
  exact List.mem_cons_of_mem _ (List.mem_cons_self '-' (' ' :: u))

/-- `tailMatchT` on a suffix of the schema stem holds exactly when the part of
the prefix before the separator is all whitespace. -/
theorem tailMatchT_schema (u : List Char) (hdash : '-' ∉ u) :
    ∀ p2 : List Char,
      tailMatchT (p2 ++ ' ' :: '-' :: ' ' :: u) = p2.all isJsWs := by
  intro p2
  induction p2 with
  | nil =>
    rw [List.nil_append, tailMatchT]
    rw [show (' ' :: '-' :: ' ' :: u).dropWhile isJsWs = '-' :: ' ' :: u by
      rw [List.dropWhile_cons, if_pos (by decide), List.dropWhile_cons, if_neg (by decide)]]
    show decide (' ' :: u ≠ [] ∧ '-' ∉ ' ' :: u) = true
    rw [decide_eq_true_eq]
    refine ⟨by simp, ?_⟩
    intro hc
    rcases List.mem_cons.mp hc with hc2 | hc2
    · exact absurd hc2.symm (by decide)
    · exact hdash hc2
  | cons d rest ih =>
    by_cases hd : isJsWs d = true
    · rw [List.cons_append, tailMatchT]
      rw [List.dropWhile_cons, if_pos hd]
      rw [tailMatchT] at ih
      rw [ih, List.all_cons, hd, Bool.true_and]
    · have hd2 : isJsWs d = false := by simpa using hd
      rw [List.cons_append, List.all_cons, hd2, Bool.false_and]
      by_cases hdd : d = '-'
      · subst hdd
        exact tailMatchT_dash_early rest u
      · exact tailMatchT_cons_ne d _ hd2 hdd

/-- The lazy scanner on a schema stem returns a capture that trims to the
trimmed order prefix. -/
theorem scanT_schema (u : List Char) (hdash : '-' ∉ u) :
    ∀ p pre : List Char, (∀ c ∈ p, isLineTerm c = false) →
      ∃ cap, scanT pre (p ++ ' ' :: '-' :: ' ' :: u) = some (pre ++ cap) ∧
        ((p = [] ∧ cap = [' ']) ∨
         (∃ w, p = cap ++ w ∧ (∀ ch ∈ w, isJsWs ch = true) ∧ cap ≠ [])) := by
  intro p
  induction p with
  | nil =>
    intro pre _
    refine ⟨[' '], ?_, Or.inl ⟨rfl, rfl⟩⟩
    rw [List.nil_append, scanT]
    rw [if_neg (by decide)]
    rw [if_pos (by
      rw [tailMatchT_dash]
      rw [decide_eq_true_eq]
      refine ⟨by simp, ?_⟩
      intro hc
      rcases List.mem_cons.mp hc with hc2 | hc2
      · exact absurd hc2.symm (by decide)
      · exact hdash hc2)]
  | cons c p2 ih =>
    intro pre hlt
    have hc0 : isLineTerm c = false := hlt c (List.mem_cons_self c p2)
    rw [List.cons_append, scanT, if_neg (by simp [hc0])]
    by_cases htm : tailMatchT (p2 ++ ' ' :: '-' :: ' ' :: u) = true
    · rw [if_pos htm]
      refine ⟨[c], rfl, Or.inr ⟨p2, rfl, ?_, by simp⟩⟩
      rw [tailMatchT_schema u hdash p2] at htm
      intro ch hch
      exact List.all_eq_true.mp htm ch hch
    · rw [if_neg htm]
      obtain ⟨cap2, hscan, hcase⟩ := ih (pre ++ [c])
        (fun ch hch => hlt ch (List.mem_cons_of_mem c hch))
      refine ⟨c :: cap2, ?_, ?_⟩
      · rw [hscan, List.append_assoc]
        rfl
      · rcases hcase with ⟨hp2, _⟩ | ⟨w, hw1, hw2, _⟩
        · -- p2 = [] would make the tail match fire, contradiction
          exfalso
          apply htm
          subst hp2
          rw [List.nil_append, tailMatchT]
          rw [show (' ' :: '-' :: ' ' :: u).dropWhile isJsWs = '-' :: ' ' :: u by
            rw [List.dropWhile_cons, if_pos (by decide), List.dropWhile_cons,
              if_neg (by decide)]]
          show decide (' ' :: u ≠ [] ∧ '-' ∉ ' ' :: u) = true
          rw [decide_eq_true_eq]
          refine ⟨by simp, ?_⟩
          intro hc
          rcases List.mem_cons.mp hc with hc2 | hc2
          · exact absurd hc2.symm (by decide)
          · exact hdash hc2
        · exact Or.inr ⟨w, by rw [hw1, List.cons_append], hw2, by simp⟩

/-- The core of claim C4: both extractors on a schema-conforming filename. -/
theorem extract_schema_core (p u e : String)
    (he : e = "mp4" ∨ e = "mov" ∨ e = "MOV" ∨ e = "TS")
    (hu : u.data ≠ []) (hdash : '-' ∉ u.data)
    (hlt : ∀ c ∈ p.data, isLineTerm c = false) :
    extractUsername (p ++ " - " ++ u ++ "." ++ e) = jsTrim u ∧
    extractTimestamp (p ++ " - " ++ u ++ "." ++ e) = jsTrim p := by
  have hdata : (p ++ " - " ++ u ++ "." ++ e).data =
      (p.data ++ ' ' :: '-' :: ' ' :: u.data) ++ '.' :: e.data := by
    show p.data ++ [' ', '-', ' '] ++ u.data ++ ['.'] ++ e.data = _
    simp
  have hsplit : extSplit (p ++ " - " ++ u ++ "." ++ e).data =
      some (p.data ++ ' ' :: '-' :: ' ' :: u.data, e.data) := by
    rw [hdata]
    rcases he with rfl | rfl | rfl | rfl
    · exact extSplit_mp4 _
    · exact extSplit_mov _
    · exact extSplit_MOVu _
    · exact extSplit_TSu _
  constructor
  · rw [extractUsername, hsplit]
    dsimp only
    rw [findCapU_schema u.data hu hdash p.data]
    show jsTrim ⟨' ' :: u.data⟩ = jsTrim u
    rw [jsTrim, jsTrim]
    rw [show (String.mk (' ' :: u.data)).data = ' ' :: u.data from rfl]
    rw [trimChars_cons_ws ' ' u.data (by decide)]
  · rw [extractTimestamp, hsplit]
    dsimp only
    obtain ⟨cap, hscan, hcase⟩ := scanT_schema u.data hdash p.data [] hlt
    rw [List.nil_append] at hscan
    rw [hscan]
    rcases hcase with ⟨hp, hcap⟩ | ⟨w, hw1, hw2, _⟩
    · rw [hcap]
      have hps : p = "" := by
        cases p with
        | mk d => simp at hp; rw [hp]
      rw [hps]
      decide
    · show String.mk (trimChars cap) = String.mk (trimChars p.data)
      rw [hw1, trimChars_append_ws cap w hw2]

/-! ## The pipeline (index.js)

Side effects are reified as `Action` values; `pathExists` and the ffmpeg/
ffprobe results are supplied by environments.  `path.resolve(x)` is modelled
as `pjoin cwd x` for the process working directory `cwd`. -/

/-- `duration = 4` seconds per clip. -/
def duration : Nat := 4

/-- `totalClips = 30`. -/
def totalClips : Nat := 30

/-- The segment filename: backtick-template `prefix_clipNN.mp4` with
`String(i+1).padStart(2, '0')`. -/
def clipFileName (pre : String) (i : Nat) : String :=
  pre ++ "_clip" ++ pad2 (i + 1) ++ ".mp4"

/-- The merge output filename `final_clipNN.mp4`. -/
def finalClipName (i : Nat) : String :=
  "final_clip" ++ pad2 (i + 1) ++ ".mp4"

/-- The merge temporary filename `temp_TIMESTAMP_clipNN.mp4`. -/
def tempClipName (ts i : Nat) : String :=
  "temp_" ++ decReprS ts ++ "_clip" ++ pad2 (i + 1) ++ ".mp4"

/-- One enqueued segment-extraction job of `splitVideo`. -/
structure SegJob where
  input : String
  start : Nat
  dur : Nat
  outPath : String
deriving DecidableEq, Repr

/-- The job list `splitVideo` builds: one job per index `0 ≤ i < totalClips`
whose destination does not already exist (`if (await fs.pathExists(outPath))
continue`). -/
def splitJobs (input clipsDir pre : String) (ex : String → Bool) : List SegJob :=
  (List.range totalClips).filterMap fun i =>
    let outPath := pjoin clipsDir (clipFileName pre i)
    if ex outPath then none
    else some ⟨input, i * duration, duration, outPath⟩

/-- Reified filesystem/engine effects. -/
inductive Action
  | ensureDir (d : String)
  | writeTest (p : String)
  | engineWrite (out : String)
  | probeRun (p : String)
  | moveFile (src dst : String) (overwrite : Bool)
  | removePath (p : String)
deriving DecidableEq, Repr

/-- Environment driving one `mergeClips` call. -/
structure MergeEnv where
  writable : Bool
  ex : String → Bool
  probe : String → Except String (List String)
  engine : Nat → Except String Nat
  tsAt : Nat → Nat

/-- The value a `mergeClips` call produces: a thrown error, the bare
`return;` (JS `undefined`), or a returned boolean. -/
inductive MergeRet
  | fatal (e : String)
  | undef
  | val (b : Bool)
deriving DecidableEq, Repr

/-- `streams.some(s => s.codec_type === 'video')`. -/
def hasVideoStream (streams : List String) : Bool := streams.contains "video"

/-- One index of the merge loop.  `none` in the first component means
"continue with the next index". -/
def mergeStep (env : MergeEnv) (clipsDir1 clipsDir2 outputSubDir pre1 pre2 tempDir : String)
    (i : Nat) : Option MergeRet × List Action :=
  let clip1 := pjoin clipsDir1 (clipFileName pre1 i)
  let clip2 := pjoin clipsDir2 (clipFileName pre2 i)
  if ¬ (env.ex clip1 = true ∧ env.ex clip2 = true) then (none, [])
  else
    let tempOutPath := pjoin tempDir (tempClipName (env.tsAt i) i)
    let finalOutPath := pjoin outputSubDir (finalClipName i)
    match env.probe clip1 with
    | .error _ => (some .undef, [.probeRun clip1])
    | .ok s1 =>
      match env.probe clip2 with
      | .error _ => (some .undef, [.probeRun clip1, .probeRun clip2])
      | .ok s2 =>
        if ¬ (hasVideoStream s1 = true ∧ hasVideoStream s2 = true) then
          (some .undef, [.probeRun clip1, .probeRun clip2])
        else
          match env.engine i with
          | .error e =>
            (some (.fatal e),
             [.probeRun clip1, .probeRun clip2, .engineWrite tempOutPath,
              .removePath tempOutPath])
          | .ok size =>
            if size = 0 then
              (some (.fatal "Temporary output file is empty"),
               [.probeRun clip1, .probeRun clip2, .engineWrite tempOutPath,
                .removePath tempOutPath])
            else
              (none,
               [.probeRun clip1, .probeRun clip2, .engineWrite tempOutPath,
                .moveFile tempOutPath finalOutPath true])

/-- The `for (let i = 0; i < totalClips; i++)` loop, with early returns. -/
def mergeLoop (env : MergeEnv) (clipsDir1 clipsDir2 outputSubDir pre1 pre2 tempDir : String) :
    Nat → Nat → MergeRet × List Action
  | _, 0 => (.val true, [])
  | i, r + 1 =>
    let s := mergeStep env clipsDir1 clipsDir2 outputSubDir pre1 pre2 tempDir i
    match s.1 with
    | some ret => (ret, s.2)
    | none =>
      let rest := mergeLoop env clipsDir1 clipsDir2 outputSubDir pre1 pre2 tempDir (i + 1) r
      (rest.1, s.2 ++ rest.2)

/-- `mergeClips`: directory setup and write-permission probes, then the index
loop; returns `true` only when the loop runs to the end. -/
def mergeClipsModel (env : MergeEnv)
    (clipsDir1 clipsDir2 outputSubDir pre1 pre2 tempDir : String) :
    MergeRet × List Action :=
  if ¬ env.writable then
    (.fatal "directory not writable", [.ensureDir outputSubDir, .ensureDir tempDir])
  else
    let setup : List Action :=
      [.ensureDir outputSubDir, .ensureDir tempDir,
       .writeTest (pjoin outputSubDir ".test"), .removePath (pjoin outputSubDir ".test"),
       .writeTest (pjoin tempDir ".test"), .removePath (pjoin tempDir ".test")]
    let loop := mergeLoop env clipsDir1 clipsDir2 outputSubDir pre1 pre2 tempDir 0 totalClips
    (loop.1, setup ++ loop.2)

/-- Per-pair scratch directory `path.join('clips', sanitizeFolderName(name))`
(a relative path in the source). -/
def clipsDirOf (nm : String) : String := pjoin "clips" (sanitizeFolderName nm)

/-- Committed output directory
`path.join(outputDir, NN_san(name1)_san(name2))` with `outputDir =
path.resolve('output')`. -/
def outputSubDirOf (cwd : String) (pairIndex : Nat) (n1 n2 : String) : String :=
  pjoin (pjoin cwd "output")
    (pad2 (pairIndex + 1) ++ "_" ++ sanitizeFolderName n1 ++ "_" ++ sanitizeFolderName n2)

/-- `path.resolve('temp')`. -/
def tempDirOf (cwd : String) : String := pjoin cwd "temp"

/-- `path.resolve('completed')`. -/
def completedRoot (cwd : String) : String := pjoin cwd "completed"

/-- `moveToCompleted`: existence-checked move; a clash is renamed with a
timestamp suffix; neither branch passes an overwrite flag. -/
def moveToCompletedModel (cwd videoPath ty : String) (ex : String → Bool) (nowStr : String) :
    Action :=
  let fileName := basename videoPath
  let targetDir := pjoin (completedRoot cwd) ty
  let targetPath := pjoin targetDir fileName
  if ex targetPath then
    let e := extname fileName
    let bn := parseName fileName
    .moveFile videoPath (pjoin targetDir (bn ++ "_" ++ nowStr ++ e)) false
  else
    .moveFile videoPath targetPath false

/-- The actions of one `splitVideo` call (directory creation plus the encodes
of the enqueued jobs; `splitVideo` removes nothing). -/
def splitActions (input clipsDir pre : String) (ex : String → Bool) : List Action :=
  Action.ensureDir clipsDir ::
    (splitJobs input clipsDir pre ex).map (fun j => .engineWrite j.outPath)

/-- The per-pair fate: which stage fails, the merge environment, whether the
success-path clip-dir removals throw, and the timestamp strings used by
`moveToCompleted`. -/
structure PairFate where
  validOk : Bool
  split1Err : Option String
  split2Err : Option String
  menv : MergeEnv
  rm1Err : Option String
  rm2Err : Option String
  now1 : String
  now2 : String

/-- `processVideoPair`: the inner try/catch turns every failure into the
cleanup block (remove output dir and both clips dirs); nothing escapes. -/
def processVideoPairModel (cwd : String) (pair : VPair) (pairIndex : Nat) (f : PairFate) :
    List Action :=
  if ¬ f.validOk then []
  else
    let c1 := clipsDirOf pair.name1
    let c2 := clipsDirOf pair.name2
    let out := outputSubDirOf cwd pairIndex pair.name1 pair.name2
    let cleanup : List Action := [.removePath out, .removePath c1, .removePath c2]
    let s1 := splitActions pair.video1 c1 pair.name1 f.menv.ex
    match f.split1Err with
    | some _ => s1 ++ cleanup
    | none =>
      let s2 := splitActions pair.video2 c2 pair.name2 f.menv.ex
      match f.split2Err with
      | some _ => s1 ++ s2 ++ cleanup
      | none =>
        let m := mergeClipsModel f.menv c1 c2 out pair.name1 pair.name2 (tempDirOf cwd)
        match m.1 with
        | .fatal _ => s1 ++ s2 ++ m.2 ++ cleanup
        | .val true =>
          let mv1 := moveToCompletedModel cwd pair.video1 "product" f.menv.ex f.now1
          let mv2 := moveToCompletedModel cwd pair.video2 "selfie" f.menv.ex f.now2
          match f.rm1Err with
          | some _ => s1 ++ s2 ++ m.2 ++ [mv1, mv2, .removePath c1] ++ cleanup
          | none =>
            match f.rm2Err with
            | some _ =>
              s1 ++ s2 ++ m.2 ++ [mv1, mv2, .removePath c1, .removePath c2] ++ cleanup
            | none => s1 ++ s2 ++ m.2 ++ [mv1, mv2, .removePath c1, .removePath c2]
        | _ =>
          match f.rm1Err with
          | some _ => s1 ++ s2 ++ m.2 ++ [.removePath c1] ++ cleanup
          | none =>
            match f.rm2Err with
            | some _ => s1 ++ s2 ++ m.2 ++ [.removePath c1, .removePath c2] ++ cleanup
            | none => s1 ++ s2 ++ m.2 ++ [.removePath c1, .removePath c2]

/-- The main loop: `for (let i = 0; i < pairs.length; i++) await
processVideoPair(pairs[i], i)` — one action trace per pair, every pair
processed because `processVideoPair` absorbs all failures. -/
def mainModel (cwd : String) (pairs : List VPair) (fates : Nat → PairFate) :
    List (List Action) :=
  pairs.enum.map (fun ip => processVideoPairModel cwd ip.2 ip.1 (fates ip.1))

/-- The paths deleted in a trace. -/
def removedPaths (acts : List Action) : List String :=
  acts.filterMap (fun a => match a with | .removePath p => some p | _ => none)

/-! ## `runWithConcurrency` (index.js lines 105–118)

The single-threaded event loop interleaves the runner chains; we model the
interleaving as a small-step transition system.  Each runner is either about
to call `next()` (idle), awaiting a task, or finished (its chain resolved, or
rejected after a task failure).  The shared counter `i` is `next`; `started`
is a ghost log of the indices claimed by `const idx = i++`. -/

/-- One runner of `runWithConcurrency`. -/
inductive RS
  | idle
  | running (i : Nat)
  | doneOk
  | doneErr
deriving DecidableEq, Repr

/-- Scheduler state. -/
structure CState where
  next : Nat
  runners : List RS
  started : List Nat
deriving DecidableEq, Repr

/-- `runners.push(next())` for `j < limit && j < tasks.length`. -/
def initState (n limit : Nat) : CState :=
  ⟨0, List.replicate (min limit n) RS.idle, []⟩

/-- The event-loop transitions.  `ok i` tells whether task `i`'s promise
resolves or rejects. -/
inductive SchedStep (n : Nat) (ok : Nat → Bool) : CState → CState → Prop
  | claim (s : CState) (r : Nat) (h : s.runners[r]? = some RS.idle) (hlt : s.next < n) :
      SchedStep n ok s
        ⟨s.next + 1, s.runners.set r (RS.running s.next), s.started ++ [s.next]⟩
  | exhaust (s : CState) (r : Nat) (h : s.runners[r]? = some RS.idle) (hge : n ≤ s.next) :
      SchedStep n ok s ⟨s.next, s.runners.set r RS.doneOk, s.started⟩
  | finish (s : CState) (r : Nat) (i : Nat) (h : s.runners[r]? = some (RS.running i)) :
      SchedStep n ok s
        ⟨s.next, s.runners.set r (if ok i then RS.idle else RS.doneErr), s.started⟩

/-- Reachability from the initial state. -/
def SchedReach (n : Nat) (ok : Nat → Bool) (limit : Nat) (s : CState) : Prop :=
  Relation.ReflTransGen (SchedStep n ok) (initState n limit) s

/-- A runner whose chain has settled. -/
def isDoneRS : RS → Bool
  | RS.doneOk => true
  | RS.doneErr => true
  | _ => false

/-- All runner chains settled: `Promise.all` has settled. -/
def terminalB (s : CState) : Bool := s.runners.all isDoneRS

/-- Every chain resolved: `runWithConcurrency` resolves. -/
def resolvedB (s : CState) : Bool := s.runners.all (fun r => r = RS.doneOk)

/-- Number of tasks currently executing. -/
def runningCount (s : CState) : Nat :=
  (s.runners.filterMap (fun r => match r with | RS.running i => some i | _ => none)).length

/-- The inductive invariant of the scheduler. -/
def SchedInv (n : Nat) (ok : Nat → Bool) (limit : Nat) (s : CState) : Prop :=
  s.runners.length = min limit n ∧
  s.started = List.range s.next ∧
  (RS.doneOk ∈ s.runners → n ≤ s.next) ∧
  (∀ i, i < s.next → ok i = false →
    ∃ r : Nat, s.runners[r]? = some RS.doneErr ∨ s.runners[r]? = some (RS.running i)) ∧
  (∀ i, RS.running i ∈ s.runners → i < s.next) ∧
  (RS.doneErr ∈ s.runners → ∃ i, i < s.next ∧ ok i = false) ∧
  s.next ≤ n

theorem schedInv_init (n ok limit) : SchedInv n ok limit (initState n limit) := by
  refine ⟨by simp [initState], by simp [initState], ?_, ?_, ?_, ?_, by simp [initState]⟩
  · intro h
    have h2 := List.eq_of_mem_replicate h
    exact absurd h2 (by decide)
  · intro i hi _
    exact absurd hi (by simp [initState])
  · intro i hi
    have h2 := List.eq_of_mem_replicate hi
    exact absurd h2 (by simp)
  · intro h
    have h2 := List.eq_of_mem_replicate h
    exact absurd h2 (by decide)

theorem mem_of_getElem?RS (l : List RS) (r : Nat) (v : RS) (h : l[r]? = some v) : v ∈ l := by
  have hr : r < l.length := by
    by_contra hc
    rw [List.getElem?_eq_none (by omega)] at h
    simp at h
  rw [List.getElem?_eq_getElem hr] at h
  rw [← Option.some_injective _ h]
  exact l.getElem_mem hr

theorem schedInv_step (n : Nat) (ok : Nat → Bool) (limit : Nat) (s s' : CState)
    (hst : SchedStep n ok s s') (hinv : SchedInv n ok limit s) : SchedInv n ok limit s' := by
  obtain ⟨hA, hB, hC, hD, hE, hF, hG⟩ := hinv
  cases hst with
  | claim r h hlt =>
    refine ⟨?_, ?_, ?_, ?_, ?_, ?_, ?_⟩
    · simpa [List.length_set] using hA
    · show s.started ++ [s.next] = List.range (s.next + 1)
      rw [hB, List.range_succ]
    · intro hmem
      rcases List.mem_or_eq_of_mem_set hmem with h2 | h2
      · exact le_trans (hC h2) (Nat.le_succ _)
      · exact absurd h2 (by simp)
    · intro i hi hok
      by_cases hieq : i = s.next
      · subst hieq
        refine ⟨r, Or.inr ?_⟩
        have hr : r < s.runners.length := by
          by_contra hc
          rw [List.getElem?_eq_none (by omega)] at h
          simp at h
        exact List.getElem?_set_eq_of_lt _ hr
      · have hi3 : i < s.next + 1 := hi
        have hi2 : i < s.next := by omega
        obtain ⟨r2, hr2⟩ := hD i hi2 hok
        by_cases hrr : r = r2
        · subst hrr
          exfalso
          rcases hr2 with hr2 | hr2 <;> rw [h] at hr2 <;>
            exact absurd (Option.some_injective _ hr2) (by simp)
        · refine ⟨r2, ?_⟩
          rw [List.getElem?_set_ne hrr]
          exact hr2
    · intro i hmem
      rcases List.mem_or_eq_of_mem_set hmem with h2 | h2
      · show i < s.next + 1
        exact lt_trans (hE i h2) (Nat.lt_succ_self _)
      · have h3 : i = s.next := RS.running.inj h2
        show i < s.next + 1
        omega
    · intro hmem
      rcases List.mem_or_eq_of_mem_set hmem with h2 | h2
      · obtain ⟨i, hi, hoki⟩ := hF h2
        exact ⟨i, by show i < s.next + 1; omega, hoki⟩
      · exact absurd h2 (by simp)
    · show s.next + 1 ≤ n
      omega
  | exhaust r h hge =>
    refine ⟨?_, hB, ?_, ?_, ?_, ?_, hG⟩
    · simpa [List.length_set] using hA
    · intro _
      exact hge
    · intro i hi hok
      obtain ⟨r2, hr2⟩ := hD i hi hok
      by_cases hrr : r = r2
      · subst hrr
        exfalso
        rcases hr2 with hr2 | hr2 <;> rw [h] at hr2 <;>
          exact absurd (Option.some_injective _ hr2) (by simp)
      · refine ⟨r2, ?_⟩
        rw [List.getElem?_set_ne hrr]
        exact hr2
    · intro i hmem
      rcases List.mem_or_eq_of_mem_set hmem with h2 | h2
      · exact hE i h2
      · exact absurd h2 (by simp)
    · intro hmem
      rcases List.mem_or_eq_of_mem_set hmem with h2 | h2
      · exact hF h2
      · exact absurd h2 (by simp)
  | finish r i h =>
    have himem : RS.running i ∈ s.runners := mem_of_getElem?RS _ r _ h
    have hilt : i < s.next := hE i himem
    refine ⟨?_, hB, ?_, ?_, ?_, ?_, hG⟩
    · simpa [List.length_set] using hA
    · intro hmem
      rcases List.mem_or_eq_of_mem_set hmem with h2 | h2
      · exact hC h2
      · cases hoki : ok i with
        | true => rw [hoki] at h2; simp at h2
        | false => rw [hoki] at h2; simp at h2
    · intro i2 hi2 hok2
      obtain ⟨r2, hr2⟩ := hD i2 hi2 hok2
      by_cases hrr : r = r2
      · subst hrr
        have hr : r < s.runners.length := by
          by_contra hc
          rw [List.getElem?_eq_none (by omega)] at h
          simp at h
        rcases hr2 with hr2 | hr2
        · rw [h] at hr2
          exact absurd (Option.some_injective _ hr2) (by simp)
        · rw [h] at hr2
          have hieq : i = i2 := RS.running.inj (Option.some_injective _ hr2)
          subst hieq
          refine ⟨r, Or.inl ?_⟩
          rw [List.getElem?_set_eq_of_lt _ hr]
          rw [show ok i = false from hok2]
          rfl
      · refine ⟨r2, ?_⟩
        rw [List.getElem?_set_ne hrr]
        exact hr2
    · intro i2 hmem
      rcases List.mem_or_eq_of_mem_set hmem with h2 | h2
      · exact hE i2 h2
      · cases hoki : ok i with
        | true => rw [hoki] at h2; simp at h2
        | false => rw [hoki] at h2; simp at h2
    · intro hmem
      rcases List.mem_or_eq_of_mem_set hmem with h2 | h2
      · exact hF h2
      · cases hoki : ok i with
        | true => rw [hoki] at h2; simp at h2
        | false => exact ⟨i, hilt, hoki⟩

theorem schedInv_reach (n : Nat) (ok : Nat → Bool) (limit : Nat) (s : CState)
    (h : SchedReach n ok limit s) : SchedInv n ok limit s := by
  induction h with
  | refl => exact schedInv_init n ok limit
  | tail _ hstep ih => exact schedInv_step n ok limit _ _ hstep ih

/-- Core scheduler facts used by claim C9: ghost-log distinctness, the
concurrency bound, the settled-state characterization, and the fact that a
running task can always take its own step (no forced cancellation). -/
theorem sched_core (n : Nat) (ok : Nat → Bool) (limit : Nat) (s : CState)
    (hlim : 1 ≤ limit) (hreach : SchedReach n ok limit s) :
    s.started.Nodup ∧ runningCount s ≤ limit ∧
    (terminalB s = true → (resolvedB s = true ↔ ∀ i, i < n → ok i = true)) ∧
    (∀ (r i : Nat), s.runners[r]? = some (RS.running i) → ∃ s2, SchedStep n ok s s2) := by
  obtain ⟨hA, hB, hC, hD, hE, hF, hG⟩ := schedInv_reach n ok limit s hreach
  refine ⟨?_, ?_, ?_, ?_⟩
  · rw [hB]
    exact List.nodup_range s.next
  · calc runningCount s ≤ s.runners.length := List.length_filterMap_le _ _
      _ = min limit n := hA
      _ ≤ limit := Nat.min_le_left _ _
  · intro hterm
    constructor
    · intro hres i hi
      by_contra hoki
      have hoki2 : ok i = false := by simpa using hoki
      have hnext : n ≤ s.next := by
        have hn1 : 1 ≤ n := by omega
        have hlen : s.runners.length = min limit n := hA
        have hpos : 0 < s.runners.length := by
          rw [hlen]
          omega
        obtain ⟨r0, hr0⟩ : ∃ r0, r0 ∈ s.runners := by
          have hne : s.runners ≠ [] := by
            intro hc
            rw [hc] at hpos
            simp at hpos
          exact ⟨s.runners.head hne, List.head_mem hne⟩
        have := List.all_eq_true.mp hres r0 hr0
        rw [decide_eq_true_eq] at this
        exact hC (this ▸ hr0)
      obtain ⟨r, hr⟩ := hD i (by omega) hoki2
      rcases hr with hr | hr
      · have hmem := mem_of_getElem?RS _ _ _ hr
        have := List.all_eq_true.mp hres _ hmem
        rw [decide_eq_true_eq] at this
        exact absurd this (by simp)
      · have hmem := mem_of_getElem?RS _ _ _ hr
        have := List.all_eq_true.mp hres _ hmem
        rw [decide_eq_true_eq] at this
        exact absurd this (by simp)
    · intro hok
      rw [resolvedB, List.all_eq_true]
      intro r0 hr0
      rw [decide_eq_true_eq]
      have hdone := List.all_eq_true.mp hterm r0 hr0
      cases r0 with
      | idle => simp [isDoneRS] at hdone
      | running i => simp [isDoneRS] at hdone
      | doneOk => rfl
      | doneErr =>
        obtain ⟨i, hi, hoki⟩ := hF hr0
        have := hok i (by omega)
        rw [this] at hoki
        simp at hoki
  · intro r i hr
    exact ⟨_, SchedStep.finish s r i hr⟩

/-- From a reachable non-settled state some event-loop step is always
possible: the system cannot get stuck before `Promise.all` settles. -/
theorem sched_progress (n : Nat) (ok : Nat → Bool) (limit : Nat) (s : CState)
    (hreach : SchedReach n ok limit s) (hterm : ¬ terminalB s = true) :
    ∃ s2, SchedStep n ok s s2 := by
  rw [terminalB, List.all_eq_true] at hterm
  push_neg at hterm
  obtain ⟨r0, hr0, hnd⟩ := hterm
  obtain ⟨idx, hidx⟩ := List.get_of_mem hr0
  have hidx2 : s.runners[idx.1]? = some r0 := by
    rw [List.getElem?_eq_getElem idx.2]
    rw [← hidx]
    rfl
  cases r0 with
  | idle =>
    by_cases hlt : s.next < n
    · exact ⟨_, SchedStep.claim s idx.1 hidx2 hlt⟩
    · exact ⟨_, SchedStep.exhaust s idx.1 hidx2 (by omega)⟩
  | running i => exact ⟨_, SchedStep.finish s idx.1 i hidx2⟩
  | doneOk => simp [isDoneRS] at hnd
  | doneErr => simp [isDoneRS] at hnd

/-! ## Path-disjointness toolkit for claim C8 -/

theorem digit_tag_split (A : List Char) :
    ∀ B s t : List Char, (∀ c ∈ A, '0' ≤ c ∧ c ≤ '9') → (∀ c ∈ B, '0' ≤ c ∧ c ≤ '9') →
      A ++ '_' :: s = B ++ '_' :: t → A = B := by
  induction A with
  | nil =>
    intro B s t _ hB h
    cases B with
    | nil => rfl
    | cons b B2 =>
      rw [List.nil_append, List.cons_append] at h
      have hb := hB b (List.mem_cons_self b B2)
      have hub : '_' = b := List.head_eq_of_cons_eq h
      rw [← hub] at hb
      exact absurd hb (by decide)
  | cons a A2 ih =>
    intro B s t hA hB h
    cases B with
    | nil =>
      rw [List.nil_append, List.cons_append] at h
      have ha := hA a (List.mem_cons_self a A2)
      have hua : a = '_' := List.head_eq_of_cons_eq h
      rw [hua] at ha
      exact absurd ha (by decide)
    | cons b B2 =>
      rw [List.cons_append, List.cons_append] at h
      have hab : a = b := List.head_eq_of_cons_eq h
      have htail := List.tail_eq_of_cons_eq h
      rw [hab, ih B2 s t (fun c hc => hA c (List.mem_cons_of_mem a hc))
        (fun c hc => hB c (List.mem_cons_of_mem b hc)) htail]

/-- The final component of an output directory, as raw characters. -/
def outTag (k : Nat) (n1 n2 : String) : List Char :=
  (pad2 (k + 1)).data ++ '_' :: ((sanitizeFolderName n1).data ++
    '_' :: (sanitizeFolderName n2).data)

theorem outputSubDir_data (cwd : String) (k : Nat) (n1 n2 : String) :
    (outputSubDirOf cwd k n1 n2).data =
      cwd.data ++ '/' :: 'o' :: 'u' :: 't' :: 'p' :: 'u' :: 't' :: '/' :: outTag k n1 n2 := by
  show ((cwd ++ "/" ++ "output") ++ "/" ++
    (pad2 (k + 1) ++ "_" ++ sanitizeFolderName n1 ++ "_" ++ sanitizeFolderName n2)).data = _
  simp only [string_data_append, outTag, List.append_assoc]
  rfl

theorem tempPath_data (cwd t : String) :
    (pjoin (tempDirOf cwd) t).data =
      cwd.data ++ '/' :: 't' :: 'e' :: 'm' :: 'p' :: '/' :: t.data := by
  show ((cwd ++ "/" ++ "temp") ++ "/" ++ t).data = _
  simp only [string_data_append, List.append_assoc]
  rfl

theorem completedRoot_data (cwd : String) :
    (completedRoot cwd).data = cwd.data ++ '/' :: 'c' :: 'o' :: 'm' :: 'p' :: 'l' ::
      'e' :: 't' :: 'e' :: 'd' :: [] := by
  show (cwd ++ "/" ++ "completed").data = _
  simp only [string_data_append, List.append_assoc]
  rfl

theorem clipsDir_data (nm : String) :
    (clipsDirOf nm).data = 'c' :: 'l' :: 'i' :: 'p' :: 's' :: '/' ::
      (sanitizeFolderName nm).data := by
  show (("clips" : String) ++ "/" ++ sanitizeFolderName nm).data = _
  simp only [string_data_append]
  rfl

theorem outTag_no_slash (k : Nat) (n1 n2 : String) : '/' ∉ outTag k n1 n2 := by
  intro h
  rw [outTag, List.mem_append] at h
  rcases h with h | h
  · have := pad2_digits (k + 1) '/' h
    exact absurd this (by decide)
  · rcases List.mem_cons.mp h with h | h
    · exact absurd h.symm (by decide)
    · rw [List.mem_append] at h
      rcases h with h | h
      · exact sanitizeFolderName_no_slash n1 h
      · rcases List.mem_cons.mp h with h | h
        · exact absurd h.symm (by decide)
        · exact sanitizeFolderName_no_slash n2 h

theorem outTag_digits_underscore (k : Nat) (n1 n2 : String) :
    ∀ B s t : List Char, (∀ c ∈ B, '0' ≤ c ∧ c ≤ '9') →
      outTag k n1 n2 = B ++ '_' :: s → (pad2 (k + 1)).data = B := by
  intro B s t hB h
  exact digit_tag_split (pad2 (k + 1)).data B
    ((sanitizeFolderName n1).data ++ '_' :: (sanitizeFolderName n2).data) s
    (pad2_digits (k + 1)) hB h

/-- Output directories of distinct pair indices are distinct paths, whatever
the sanitized names are. -/
theorem outputSubDir_ne (cwd : String) (j k : Nat) (hjk : j ≠ k)
    (n1 n2 m1 m2 : String) :
    outputSubDirOf cwd j n1 n2 ≠ outputSubDirOf cwd k m1 m2 := by
  intro h
  have hd := congrArg String.data h
  rw [outputSubDir_data, outputSubDir_data] at hd
  have htag : outTag j n1 n2 = outTag k m1 m2 := by
    have h2 := List.append_cancel_left hd
    exact
      List.tail_eq_of_cons_eq (List.tail_eq_of_cons_eq (List.tail_eq_of_cons_eq
        (List.tail_eq_of_cons_eq (List.tail_eq_of_cons_eq (List.tail_eq_of_cons_eq
          (List.tail_eq_of_cons_eq (List.tail_eq_of_cons_eq h2)))))))
  have hpad : (pad2 (j + 1)).data = (pad2 (k + 1)).data := by
    rw [outTag, outTag] at htag
    exact digit_tag_split _ _ _ _ (pad2_digits (j + 1)) (pad2_digits (k + 1)) htag
  have : pad2 (j + 1) = pad2 (k + 1) := by
    cases hp : pad2 (j + 1)
    cases hq : pad2 (k + 1)
    rw [hp, hq] at hpad
    exact congrArg String.mk (by simpa using hpad)
  have := pad2_inj this
  omega

/-- A path under the per-pair output dir (the `.test` probe) is never an
output dir itself. -/
theorem outputSubDir_ne_test (cwd : String) (j k : Nat) (n1 n2 m1 m2 : String) :
    outputSubDirOf cwd j n1 n2 ≠ pjoin (outputSubDirOf cwd k m1 m2) ".test" := by
  intro h
  have hd := congrArg String.data h
  rw [outputSubDir_data] at hd
  rw [show (pjoin (outputSubDirOf cwd k m1 m2) ".test").data =
      (outputSubDirOf cwd k m1 m2).data ++ '/' :: '.' :: 't' :: 'e' :: 's' :: 't' :: [] by
    show ((outputSubDirOf cwd k m1 m2) ++ "/" ++ ".test").data = _
    simp only [string_data_append, List.append_assoc]
    rfl] at hd
  rw [outputSubDir_data, List.append_assoc] at hd
  have h2 := List.append_cancel_left hd
  have h3 := List.tail_eq_of_cons_eq (List.tail_eq_of_cons_eq (List.tail_eq_of_cons_eq
    (List.tail_eq_of_cons_eq (List.tail_eq_of_cons_eq (List.tail_eq_of_cons_eq
      (List.tail_eq_of_cons_eq (List.tail_eq_of_cons_eq h2)))))))
  apply outTag_no_slash j n1 n2
  rw [h3]
  exact List.mem_append_right _ (List.mem_cons_self _ _)

/-- An output dir never coincides with a path in the shared temp area. -/
theorem outputSubDir_ne_temp (cwd : String) (j : Nat) (n1 n2 : String) (t : String) :
    outputSubDirOf cwd j n1 n2 ≠ pjoin (tempDirOf cwd) t := by
  intro h
  have hd := congrArg String.data h
  rw [outputSubDir_data, tempPath_data] at hd
  have h2 := List.append_cancel_left hd
  have h3 := List.tail_eq_of_cons_eq h2
  exact absurd (List.head_eq_of_cons_eq h3) (by decide)

/-- An output dir never coincides with a relative clips scratch dir. -/
theorem outputSubDir_ne_clips (cwd : String) (hcwd : ∃ cs, cwd.data = '/' :: cs)
    (j : Nat) (n1 n2 nm : String) :
    outputSubDirOf cwd j n1 n2 ≠ clipsDirOf nm := by
  obtain ⟨cs, hcs⟩ := hcwd
  intro h
  have hd := congrArg String.data h
  rw [outputSubDir_data, clipsDir_data, hcs, List.cons_append] at hd
  exact absurd (List.head_eq_of_cons_eq hd) (by decide)

/-- Whether a path lies inside the completed area. -/
def underCompleted (cwd : String) (q : String) : Prop :=
  ∃ t, q.data = (completedRoot cwd).data ++ t

theorem out_not_underCompleted (cwd : String) (j : Nat) (n1 n2 : String) :
    ¬ underCompleted cwd (outputSubDirOf cwd j n1 n2) := by
  rintro ⟨t, ht⟩
  rw [outputSubDir_data, completedRoot_data, List.append_assoc] at ht
  have h2 := List.append_cancel_left ht
  have h3 := List.tail_eq_of_cons_eq h2
  exact absurd (List.head_eq_of_cons_eq h3) (by decide)

theorem outTest_not_underCompleted (cwd : String) (j : Nat) (n1 n2 : String) :
    ¬ underCompleted cwd (pjoin (outputSubDirOf cwd j n1 n2) ".test") := by
  rintro ⟨t, ht⟩
  rw [show (pjoin (outputSubDirOf cwd j n1 n2) ".test").data =
      (outputSubDirOf cwd j n1 n2).data ++ '/' :: '.' :: 't' :: 'e' :: 's' :: 't' :: [] by
    show ((outputSubDirOf cwd j n1 n2) ++ "/" ++ ".test").data = _
    simp only [string_data_append, List.append_assoc]
    rfl] at ht
  rw [outputSubDir_data, completedRoot_data, List.append_assoc, List.append_assoc] at ht
  have h2 := List.append_cancel_left ht
  have h3 := List.tail_eq_of_cons_eq h2
  exact absurd (List.head_eq_of_cons_eq h3) (by decide)

theorem temp_not_underCompleted (cwd : String) (t : String) :
    ¬ underCompleted cwd (pjoin (tempDirOf cwd) t) := by
  rintro ⟨w, hw⟩
  rw [tempPath_data, completedRoot_data, List.append_assoc] at hw
  have h2 := List.append_cancel_left hw
  have h3 := List.tail_eq_of_cons_eq h2
  exact absurd (List.head_eq_of_cons_eq h3) (by decide)

theorem clips_not_underCompleted (cwd : String) (hcwd : ∃ cs, cwd.data = '/' :: cs)
    (nm : String) : ¬ underCompleted cwd (clipsDirOf nm) := by
  obtain ⟨cs, hcs⟩ := hcwd
  rintro ⟨w, hw⟩
  rw [clipsDir_data, completedRoot_data, hcs, List.cons_append, List.cons_append] at hw
  exact absurd (List.head_eq_of_cons_eq hw) (by decide)

theorem pjoin_data (a b : String) : (pjoin a b).data = a.data ++ '/' :: b.data := by
  show ((a ++ "/") ++ b).data = _
  simp only [string_data_append, List.append_assoc]
  rfl

/-- Containment (strict or not) of a path inside a directory. -/
def underDir (d q : String) : Prop :=
  q = d ∨ ∃ t, q.data = d.data ++ '/' :: t

theorem append_sep_inj : ∀ (a b u v : List Char), '/' ∉ a → '/' ∉ b →
    a ++ '/' :: u = b ++ '/' :: v → a = b := by
  intro a
  induction a with
  | nil =>
    intro b u v _ hb h
    cases b with
    | nil => rfl
    | cons c bs =>
      rw [List.nil_append, List.cons_append] at h
      have hc : '/' = c := List.head_eq_of_cons_eq h
      exact absurd (by rw [hc]; exact List.mem_cons_self _ _) hb
  | cons x xs ih =>
    intro b u v ha hb h
    cases b with
    | nil =>
      rw [List.nil_append, List.cons_append] at h
      have hx : x = '/' := List.head_eq_of_cons_eq h
      exact absurd (by rw [← hx]; exact List.mem_cons_self _ _) ha
    | cons y ys =>
      rw [List.cons_append, List.cons_append] at h
      have hxy : x = y := List.head_eq_of_cons_eq h
      rw [hxy,
        ih ys u v (fun hm => ha (List.mem_cons_of_mem x hm))
          (fun hm => hb (List.mem_cons_of_mem y hm)) (List.tail_eq_of_cons_eq h)]

/-- Equal output tags force equal pair indices. -/
theorem outTag_inj_idx (j k : Nat) (n1 n2 m1 m2 : String)
    (h : outTag j n1 n2 = outTag k m1 m2) : j = k := by
  have hpad : (pad2 (j + 1)).data = (pad2 (k + 1)).data := by
    rw [outTag, outTag] at h
    exact digit_tag_split _ _ _ _ (pad2_digits (j + 1)) (pad2_digits (k + 1)) h
  have hp : pad2 (j + 1) = pad2 (k + 1) := by
    cases hq1 : pad2 (j + 1)
    cases hq2 : pad2 (k + 1)
    rw [hq1, hq2] at hpad
    exact congrArg String.mk (by simpa using hpad)
  have := pad2_inj hp
  omega

/-- Another pair's output dir is never inside this pair's output dir. -/
theorem out_not_under_out (cwd : String) (j k : Nat) (hjk : j ≠ k)
    (n1 n2 m1 m2 : String) :
    ¬ underDir (outputSubDirOf cwd j n1 n2) (outputSubDirOf cwd k m1 m2) := by
  rintro (h | ⟨t, ht⟩)
  · exact outputSubDir_ne cwd k j (Ne.symm hjk) m1 m2 n1 n2 h
  · rw [outputSubDir_data, outputSubDir_data, List.append_assoc] at ht
    have h2 := List.append_cancel_left ht
    simp only [List.cons_append] at h2
    have h3 := List.tail_eq_of_cons_eq (List.tail_eq_of_cons_eq (List.tail_eq_of_cons_eq
      (List.tail_eq_of_cons_eq (List.tail_eq_of_cons_eq (List.tail_eq_of_cons_eq
        (List.tail_eq_of_cons_eq (List.tail_eq_of_cons_eq h2)))))))
    apply outTag_no_slash k m1 m2
    rw [h3]
    exact List.mem_append_right _ (List.mem_cons_self _ _)

/-- No file under one pair's output dir (final clips, the probe file) lies
inside a different pair's output dir. -/
theorem outChild_not_under_out (cwd : String) (j k : Nat) (hjk : j ≠ k)
    (n1 n2 m1 m2 s : String) :
    ¬ underDir (outputSubDirOf cwd j n1 n2) (pjoin (outputSubDirOf cwd k m1 m2) s) := by
  rintro (h | ⟨t, ht⟩)
  · have hd := congrArg String.data h
    rw [pjoin_data, outputSubDir_data, outputSubDir_data, List.append_assoc] at hd
    have h2 := List.append_cancel_left hd
    simp only [List.cons_append] at h2
    have h3 := List.tail_eq_of_cons_eq (List.tail_eq_of_cons_eq (List.tail_eq_of_cons_eq
      (List.tail_eq_of_cons_eq (List.tail_eq_of_cons_eq (List.tail_eq_of_cons_eq
        (List.tail_eq_of_cons_eq (List.tail_eq_of_cons_eq h2)))))))
    apply outTag_no_slash j n1 n2
    rw [← h3]
    exact List.mem_append_right _ (List.mem_cons_self _ _)
  · rw [pjoin_data, outputSubDir_data, outputSubDir_data, List.append_assoc,
      List.append_assoc] at ht
    have h2 := List.append_cancel_left ht
    simp only [List.cons_append] at h2
    have h3 := List.tail_eq_of_cons_eq (List.tail_eq_of_cons_eq (List.tail_eq_of_cons_eq
      (List.tail_eq_of_cons_eq (List.tail_eq_of_cons_eq (List.tail_eq_of_cons_eq
        (List.tail_eq_of_cons_eq (List.tail_eq_of_cons_eq h2)))))))
    have heq := append_sep_inj _ _ _ _ (outTag_no_slash k m1 m2)
      (outTag_no_slash j n1 n2) h3
    exact hjk (outTag_inj_idx j k n1 n2 m1 m2 heq.symm)

/-- A relative clips scratch dir is never inside an output dir. -/
theorem clips_not_under_out (cwd : String) (hcwd : ∃ cs, cwd.data = '/' :: cs)
    (j : Nat) (n1 n2 nm : String) :
    ¬ underDir (outputSubDirOf cwd j n1 n2) (clipsDirOf nm) := by
  obtain ⟨cs, hcs⟩ := hcwd
  rintro (h | ⟨t, ht⟩)
  · exact outputSubDir_ne_clips cwd ⟨cs, hcs⟩ j n1 n2 nm h.symm
  · rw [clipsDir_data, outputSubDir_data, hcs, List.cons_append] at ht
    exact absurd (List.head_eq_of_cons_eq ht) (by decide)

/-- A temp-area path is never inside an output dir. -/
theorem temp_not_under_out (cwd : String) (j : Nat) (n1 n2 t : String) :
    ¬ underDir (outputSubDirOf cwd j n1 n2) (pjoin (tempDirOf cwd) t) := by
  rintro (h | ⟨w, hw⟩)
  · exact outputSubDir_ne_temp cwd j n1 n2 t h.symm
  · rw [tempPath_data, outputSubDir_data, List.append_assoc] at hw
    have h2 := List.append_cancel_left hw
    simp only [List.cons_append] at h2
    have h3 := List.tail_eq_of_cons_eq h2
    exact absurd (List.head_eq_of_cons_eq h3) (by decide)

theorem outChild_not_underCompleted (cwd : String) (k : Nat) (m1 m2 s : String) :
    ¬ underCompleted cwd (pjoin (outputSubDirOf cwd k m1 m2) s) := by
  rintro ⟨t, ht⟩
  rw [pjoin_data, outputSubDir_data, completedRoot_data, List.append_assoc,
    List.append_assoc] at ht
  have h2 := List.append_cancel_left ht
  have h3 := List.tail_eq_of_cons_eq h2
  exact absurd (List.head_eq_of_cons_eq h3) (by decide)

/-- The destinations of overwrite-mode moves in a trace. -/
def overwriteDsts (acts : List Action) : List String :=
  acts.filterMap (fun a => match a with
    | .moveFile _ d true => some d
    | _ => none)

theorem removedPaths_append (l1 l2 : List Action) :
    removedPaths (l1 ++ l2) = removedPaths l1 ++ removedPaths l2 :=
  List.filterMap_append l1 l2 _

theorem overwriteDsts_append (l1 l2 : List Action) :
    overwriteDsts (l1 ++ l2) = overwriteDsts l1 ++ overwriteDsts l2 :=
  List.filterMap_append l1 l2 _

theorem splitActions_removes (input cdir pre : String) (ex : String → Bool) :
    removedPaths (splitActions input cdir pre ex) = [] := by
  rw [splitActions, removedPaths, List.filterMap_cons]
  dsimp only
  rw [List.filterMap_map]
  exact List.filterMap_eq_nil.mpr (fun a _ => rfl)

theorem splitActions_overwrites (input cdir pre : String) (ex : String → Bool) :
    overwriteDsts (splitActions input cdir pre ex) = [] := by
  rw [splitActions, overwriteDsts, List.filterMap_cons]
  dsimp only
  rw [List.filterMap_map]
  exact List.filterMap_eq_nil.mpr (fun a _ => rfl)

theorem mergeStep_removes (env : MergeEnv) (c1 c2 out p1 p2 tmp : String) (i : Nat) :
    ∀ q ∈ removedPaths (mergeStep env c1 c2 out p1 p2 tmp i).2,
      ∃ t, q = pjoin tmp t := by
  intro q hq
  rw [mergeStep] at hq
  dsimp only at hq
  split at hq
  · simp [removedPaths] at hq
  · split at hq
    · simp [removedPaths] at hq
    · split at hq
      · simp [removedPaths] at hq
      · split at hq
        · simp [removedPaths] at hq
        · split at hq
          · simp [removedPaths] at hq
            exact ⟨_, hq⟩
          · split at hq
            · simp [removedPaths] at hq
              exact ⟨_, hq⟩
            · simp [removedPaths] at hq

theorem mergeStep_overwrites (env : MergeEnv) (c1 c2 out p1 p2 tmp : String) (i : Nat) :
    ∀ d ∈ overwriteDsts (mergeStep env c1 c2 out p1 p2 tmp i).2,
      ∃ s, d = pjoin out s := by
  intro d hd
  rw [mergeStep] at hd
  dsimp only at hd
  split at hd
  · simp [overwriteDsts] at hd
  · split at hd
    · simp [overwriteDsts] at hd
    · split at hd
      · simp [overwriteDsts] at hd
      · split at hd
        · simp [overwriteDsts] at hd
        · split at hd
          · simp [overwriteDsts] at hd
          · split at hd
            · simp [overwriteDsts] at hd
            · simp [overwriteDsts] at hd
              exact ⟨_, hd⟩

theorem mergeLoop_removes (env : MergeEnv) (c1 c2 out p1 p2 tmp : String) :
    ∀ (r i : Nat) (q : String),
      q ∈ removedPaths (mergeLoop env c1 c2 out p1 p2 tmp i r).2 →
      ∃ t, q = pjoin tmp t := by
  intro r
  induction r with
  | zero =>
    intro i q hq
    simp [mergeLoop, removedPaths] at hq
  | succ r ih =>
    intro i q hq
    rw [mergeLoop] at hq
    dsimp only at hq
    cases hs : (mergeStep env c1 c2 out p1 p2 tmp i).1 with
    | some ret =>
      rw [hs] at hq
      exact mergeStep_removes env c1 c2 out p1 p2 tmp i q hq
    | none =>
      rw [hs] at hq
      dsimp only at hq
      rw [removedPaths_append] at hq
      rcases List.mem_append.mp hq with h | h
      · exact mergeStep_removes env c1 c2 out p1 p2 tmp i q h
      · exact ih (i + 1) q h

theorem mergeLoop_overwrites (env : MergeEnv) (c1 c2 out p1 p2 tmp : String) :
    ∀ (r i : Nat) (d : String),
      d ∈ overwriteDsts (mergeLoop env c1 c2 out p1 p2 tmp i r).2 →
      ∃ s, d = pjoin out s := by
  intro r
  induction r with
  | zero =>
    intro i d hd
    simp [mergeLoop, overwriteDsts] at hd
  | succ r ih =>
    intro i d hd
    rw [mergeLoop] at hd
    dsimp only at hd
    cases hs : (mergeStep env c1 c2 out p1 p2 tmp i).1 with
    | some ret =>
      rw [hs] at hd
      exact mergeStep_overwrites env c1 c2 out p1 p2 tmp i d hd
    | none =>
      rw [hs] at hd
      dsimp only at hd
      rw [overwriteDsts_append] at hd
      rcases List.mem_append.mp hd with h | h
      · exact mergeStep_overwrites env c1 c2 out p1 p2 tmp i d h
      · exact ih (i + 1) d h

theorem mergeClips_removes (env : MergeEnv) (c1 c2 out p1 p2 tmp : String) :
    ∀ q ∈ removedPaths (mergeClipsModel env c1 c2 out p1 p2 tmp).2,
      q = pjoin out ".test" ∨ ∃ t, q = pjoin tmp t := by
  intro q hq
  rw [mergeClipsModel] at hq
  split at hq
  · simp [removedPaths] at hq
  · dsimp only at hq
    rw [removedPaths_append] at hq
    rcases List.mem_append.mp hq with h | h
    · simp [removedPaths, List.filterMap_cons] at h
      rcases h with h | h
      · exact Or.inl h
      · exact Or.inr ⟨".test", h⟩
    · exact Or.inr (mergeLoop_removes env c1 c2 out p1 p2 tmp totalClips 0 q h)

theorem mergeClips_overwrites (env : MergeEnv) (c1 c2 out p1 p2 tmp : String) :
    ∀ d ∈ overwriteDsts (mergeClipsModel env c1 c2 out p1 p2 tmp).2,
      ∃ s, d = pjoin out s := by
  intro d hd
  rw [mergeClipsModel] at hd
  split at hd
  · simp [overwriteDsts] at hd
  · dsimp only at hd
    rw [overwriteDsts_append] at hd
    rcases List.mem_append.mp hd with h | h
    · simp [overwriteDsts, List.filterMap_cons] at h
    · exact mergeLoop_overwrites env c1 c2 out p1 p2 tmp totalClips 0 d h

theorem moveToCompleted_is_move (cwd v ty : String) (ex : String → Bool) (now : String) :
    ∃ s d, moveToCompletedModel cwd v ty ex now = .moveFile s d false := by
  rw [moveToCompletedModel]
  split
  · exact ⟨_, _, rfl⟩
  · exact ⟨_, _, rfl⟩

theorem removedPaths_nil : removedPaths [] = [] := rfl

theorem removedPaths_cons_move (s d : String) (o : Bool) (rest : List Action) :
    removedPaths (Action.moveFile s d o :: rest) = removedPaths rest := rfl

theorem removedPaths_cons_rm (p : String) (rest : List Action) :
    removedPaths (Action.removePath p :: rest) = p :: removedPaths rest := rfl

theorem overwriteDsts_nil : overwriteDsts [] = [] := rfl

theorem overwriteDsts_cons_move_false (s d : String) (rest : List Action) :
    overwriteDsts (Action.moveFile s d false :: rest) = overwriteDsts rest := rfl

theorem overwriteDsts_cons_rm (p : String) (rest : List Action) :
    overwriteDsts (Action.removePath p :: rest) = overwriteDsts rest := rfl

theorem proc_removes_route (cwd : String) (pair : VPair) (k : Nat) (f : PairFate)
    (q : String)
    (h : q ∈ removedPaths (mergeClipsModel f.menv (clipsDirOf pair.name1)
          (clipsDirOf pair.name2) (outputSubDirOf cwd k pair.name1 pair.name2)
          pair.name1 pair.name2 (tempDirOf cwd)).2 ∨
        q = outputSubDirOf cwd k pair.name1 pair.name2 ∨
        q = clipsDirOf pair.name1 ∨ q = clipsDirOf pair.name2) :
    q = outputSubDirOf cwd k pair.name1 pair.name2 ∨
    q = clipsDirOf pair.name1 ∨ q = clipsDirOf pair.name2 ∨
    q = pjoin (outputSubDirOf cwd k pair.name1 pair.name2) ".test" ∨
    ∃ t, q = pjoin (tempDirOf cwd) t := by
  rcases h with h | h | h | h
  · rcases mergeClips_removes f.menv _ _ _ _ _ _ q h with h | h
    · exact Or.inr (Or.inr (Or.inr (Or.inl h)))
    · exact Or.inr (Or.inr (Or.inr (Or.inr h)))
  · exact Or.inl h
  · exact Or.inr (Or.inl h)
  · exact Or.inr (Or.inr (Or.inl h))

/-- Every path `processVideoPair` removes is the pair's own output dir, one of
its two clips scratch dirs, its write-probe file, or a temp-area file. -/
theorem proc_removes (cwd : String) (pair : VPair) (k : Nat) (f : PairFate) :
    ∀ q ∈ removedPaths (processVideoPairModel cwd pair k f),
      q = outputSubDirOf cwd k pair.name1 pair.name2 ∨
      q = clipsDirOf pair.name1 ∨ q = clipsDirOf pair.name2 ∨
      q = pjoin (outputSubDirOf cwd k pair.name1 pair.name2) ".test" ∨
      ∃ t, q = pjoin (tempDirOf cwd) t := by
  intro q hq
  obtain ⟨ms1, md1, hm1⟩ :=
    moveToCompleted_is_move cwd pair.video1 "product" f.menv.ex f.now1
  obtain ⟨ms2, md2, hm2⟩ :=
    moveToCompleted_is_move cwd pair.video2 "selfie" f.menv.ex f.now2
  rw [processVideoPairModel] at hq
  split at hq
  · rw [removedPaths_nil] at hq
    exact absurd hq (List.not_mem_nil q)
  · dsimp only at hq
    rw [hm1, hm2] at hq
    repeat' split at hq
    all_goals
      simp only [removedPaths_append, splitActions_removes, List.nil_append,
        removedPaths_cons_move, removedPaths_cons_rm, removedPaths_nil,
        List.append_nil, List.mem_append, List.mem_cons, List.not_mem_nil,
        or_false, false_or] at hq
    all_goals exact proc_removes_route cwd pair k f q (by tauto)

/-- Every overwrite-mode move `processVideoPair` performs lands inside the
pair's own output dir. -/
theorem proc_overwrites (cwd : String) (pair : VPair) (k : Nat) (f : PairFate) :
    ∀ d ∈ overwriteDsts (processVideoPairModel cwd pair k f),
      ∃ s, d = pjoin (outputSubDirOf cwd k pair.name1 pair.name2) s := by
  intro d hd
  obtain ⟨ms1, md1, hm1⟩ :=
    moveToCompleted_is_move cwd pair.video1 "product" f.menv.ex f.now1
  obtain ⟨ms2, md2, hm2⟩ :=
    moveToCompleted_is_move cwd pair.video2 "selfie" f.menv.ex f.now2
  rw [processVideoPairModel] at hd
  split at hd
  · rw [overwriteDsts_nil] at hd
    exact absurd hd (List.not_mem_nil d)
  · dsimp only at hd
    rw [hm1, hm2] at hd
    repeat' split at hd
    all_goals
      simp only [overwriteDsts_append, splitActions_overwrites, List.nil_append,
        overwriteDsts_cons_move_false, overwriteDsts_cons_rm, overwriteDsts_nil,
        List.append_nil, List.mem_append, List.mem_cons, List.not_mem_nil,
        or_false, false_or] at hd
    all_goals exact mergeClips_overwrites f.menv _ _ _ _ _ _ d hd

theorem mainModel_length (cwd : String) (pairs : List VPair) (fates : Nat → PairFate) :
    (mainModel cwd pairs fates).length = pairs.length := by
  rw [mainModel, List.length_map, List.enum_length]

theorem mainModel_getElem? (cwd : String) (pairs : List VPair) (fates : Nat → PairFate)
    (k : Nat) (pk : VPair) (hk : pairs[k]? = some pk) :
    (mainModel cwd pairs fates)[k]? =
      some (processVideoPairModel cwd pk k (fates k)) := by
  rw [mainModel, List.getElem?_map, List.getElem?_enum, hk]
  rfl

theorem extname_clipFileName (pre : String) (i : Nat) :
    extname (clipFileName pre i) = ".mp4" := by
  show extname ⟨(pre ++ "_clip" ++ pad2 (i + 1)).data ++ ".mp4".data⟩ = ".mp4"
  apply extname_append_mp4
  show ¬ pre.data ++ "_clip".data ++ (pad2 (i + 1)).data = []
  simp [List.append_eq_nil]

theorem extname_finalClipName (i : Nat) :
    extname (finalClipName i) = ".mp4" := by
  show extname ⟨("final_clip" ++ pad2 (i + 1)).data ++ ".mp4".data⟩ = ".mp4"
  apply extname_append_mp4
  show ¬ "final_clip".data ++ (pad2 (i + 1)).data = []
  simp [List.append_eq_nil]

theorem extname_tempClipName (ts i : Nat) :
    extname (tempClipName ts i) = ".mp4" := by
  show extname ⟨("temp_" ++ decReprS ts ++ "_clip" ++ pad2 (i + 1)).data ++
    ".mp4".data⟩ = ".mp4"
  apply extname_append_mp4
  show ¬ "temp_".data ++ (decReprS ts).data ++ "_clip".data ++ (pad2 (i + 1)).data = []
  simp [List.append_eq_nil]

/-- Membership in the split job queue: exactly the indices whose destination
does not yet exist, with the source's fixed naming and timing. -/
theorem splitJobs_mem (input cdir pre : String) (ex : String → Bool) (j : SegJob) :
    j ∈ splitJobs input cdir pre ex ↔
      ∃ i, i < totalClips ∧ ex (pjoin cdir (clipFileName pre i)) = false ∧
        j = ⟨input, i * duration, duration, pjoin cdir (clipFileName pre i)⟩ := by
  rw [splitJobs, List.mem_filterMap]
  constructor
  · rintro ⟨i, hi, hj⟩
    rw [List.mem_range] at hi
    dsimp only at hj
    by_cases hex : ex (pjoin cdir (clipFileName pre i)) = true
    · rw [if_pos hex] at hj
      exact absurd hj (by simp)
    · rw [if_neg hex] at hj
      exact ⟨i, hi, by simpa using hex, (Option.some_injective _ hj).symm⟩
  · rintro ⟨i, hi, hex, rfl⟩
    refine ⟨i, List.mem_range.mpr hi, ?_⟩
    dsimp only
    rw [if_neg (by simp [hex])]

theorem mergeStep_moves (env : MergeEnv) (c1 c2 out p1 p2 tmp : String) (i : Nat)
    (s d : String) (o : Bool)
    (h : Action.moveFile s d o ∈ (mergeStep env c1 c2 out p1 p2 tmp i).2) :
    o = true ∧ s = pjoin tmp (tempClipName (env.tsAt i) i) ∧
      d = pjoin out (finalClipName i) := by
  rw [mergeStep] at h
  dsimp only at h
  split at h
  · simp at h
  · split at h
    · simp at h
    · split at h
      · simp at h
      · split at h
        · simp at h
        · split at h
          · simp at h
          · split at h
            · simp at h
            · simp only [List.mem_cons, List.not_mem_nil, or_false] at h
              rcases h with h | h | h | h
              · exact absurd h (by simp)
              · exact absurd h (by simp)
              · exact absurd h (by simp)
              · obtain ⟨hs, hd, ho⟩ := Action.moveFile.inj h
                exact ⟨ho, hs, hd⟩

theorem mergeLoop_moves (env : MergeEnv) (c1 c2 out p1 p2 tmp : String) :
    ∀ (r i : Nat) (s d : String) (o : Bool),
      Action.moveFile s d o ∈ (mergeLoop env c1 c2 out p1 p2 tmp i r).2 →
      o = true ∧ ∃ n, s = pjoin tmp (tempClipName (env.tsAt n) n) ∧
        d = pjoin out (finalClipName n) := by
  intro r
  induction r with
  | zero =>
    intro i s d o h
    simp [mergeLoop] at h
  | succ r ih =>
    intro i s d o h
    rw [mergeLoop] at h
    dsimp only at h
    cases hs : (mergeStep env c1 c2 out p1 p2 tmp i).1 with
    | some ret =>
      rw [hs] at h
      obtain ⟨ho, h1, h2⟩ := mergeStep_moves env c1 c2 out p1 p2 tmp i s d o h
      exact ⟨ho, i, h1, h2⟩
    | none =>
      rw [hs] at h
      dsimp only at h
      rcases List.mem_append.mp h with h | h
      · obtain ⟨ho, h1, h2⟩ := mergeStep_moves env c1 c2 out p1 p2 tmp i s d o h
        exact ⟨ho, i, h1, h2⟩
      · exact ih (i + 1) s d o h

/-- Every move `mergeClips` performs is the overwrite-mode relocation of a
temp segment onto a `final_clipNN.mp4` destination. -/
theorem mergeClips_moves (env : MergeEnv) (c1 c2 out p1 p2 tmp : String)
    (s d : String) (o : Bool)
    (h : Action.moveFile s d o ∈ (mergeClipsModel env c1 c2 out p1 p2 tmp).2) :
    o = true ∧ ∃ n, s = pjoin tmp (tempClipName (env.tsAt n) n) ∧
      d = pjoin out (finalClipName n) := by
  rw [mergeClipsModel] at h
  split at h
  · simp at h
  · dsimp only at h
    rcases List.mem_append.mp h with h | h
    · simp only [List.mem_cons, List.not_mem_nil, or_false] at h
      rcases h with h | h | h | h | h | h <;> exact absurd h (by simp)
    · exact mergeLoop_moves env c1 c2 out p1 p2 tmp totalClips 0 s d o h

/-- `moveToCompleted` never passes an overwrite flag, and an occupied target
is dodged with a strictly longer timestamped destination name. -/
theorem moveToCompleted_never_overwrites (cwd v ty : String) (ex : String → Bool)
    (now : String) :
    ∃ s d, moveToCompletedModel cwd v ty ex now = .moveFile s d false ∧
      (ex (pjoin (pjoin (completedRoot cwd) ty) (basename v)) = true →
        d ≠ pjoin (pjoin (completedRoot cwd) ty) (basename v)) := by
  rw [moveToCompletedModel]
  dsimp only
  split
  · refine ⟨_, _, rfl, ?_⟩
    intro _ hc
    have hc2 := pjoin_inj _ hc
    have hlen := congrArg (fun s => s.data.length) hc2
    simp only [string_data_append, List.length_append] at hlen
    have hpn : (parseName (basename v)).data.length =
        min ((basename v).data.length - (extname (basename v)).data.length)
          (basename v).data.length := by
      show ((basename v).data.take _).length = _
      rw [List.length_take]
    rw [hpn] at hlen
    have h1 : ("_" : String).data.length = 1 := rfl
    rw [h1] at hlen
    omega
  · refine ⟨_, _, rfl, ?_⟩
    intro hex
    rename_i hc
    exact absurd hex hc

/-- `video1` components of the returned pairs are pairwise distinct. -/
theorem model_video1_nodup (sourceDir : String) (pf sf : List String)
    (ex : String → Bool) (hp : pf.Nodup) (hs : sf.Nodup) (hex : ∀ p, ex p = true) :
    ((findVideoPairsModel sourceDir pf sf ex).map (fun q => q.video1)).Nodup := by
  by_cases hP : pf.filter isVideoFile = []
  · simp [findVideoPairsModel, findVideoPairsState, List.isEmpty_iff, hP, initES]
  · by_cases hS : sf.filter isVideoFile = []
    · simp [findVideoPairsModel, findVideoPairsState, List.isEmpty_iff, hS, initES]
    · rw [findVideoPairsModel_eq_blocks sourceDir pf sf ex hp hs hex hP hS]
      exact blocks_video1_nodup _ _ _ _ (hp.filter _)

/-- `video2` components of the returned pairs are pairwise distinct. -/
theorem model_video2_nodup (sourceDir : String) (pf sf : List String)
    (ex : String → Bool) (hp : pf.Nodup) (hs : sf.Nodup) (hex : ∀ p, ex p = true) :
    ((findVideoPairsModel sourceDir pf sf ex).map (fun q => q.video2)).Nodup := by
  by_cases hP : pf.filter isVideoFile = []
  · simp [findVideoPairsModel, findVideoPairsState, List.isEmpty_iff, hP, initES]
  · by_cases hS : sf.filter isVideoFile = []
    · simp [findVideoPairsModel, findVideoPairsState, List.isEmpty_iff, hS, initES]
    · rw [findVideoPairsModel_eq_blocks sourceDir pf sf ex hp hs hex hP hS]
      exact blocks_video2_nodup _ _ _ _ (hs.filter _)

/-- Distinct ordering keys on a whole listing give distinct ordering keys in
every per-identity group. -/
theorem ts_nodup_of_global (pf : List String)
    (hn : ((pf.filter isVideoFile).map extractTimestamp).Nodup) :
    ∀ u, (((pf.filter isVideoFile).filter
      (fun f => decide (extractUsername f = u))).map extractTimestamp).Nodup := by
  intro u
  exact ((List.filter_sublist _).map extractTimestamp).nodup hn

theorem mainModel_getElem?_inv (cwd : String) (pairs : List VPair)
    (fates : Nat → PairFate) (k : Nat) (tr : List Action)
    (h : (mainModel cwd pairs fates)[k]? = some tr) :
    ∃ pk, pairs[k]? = some pk ∧ tr = processVideoPairModel cwd pk k (fates k) := by
  rw [mainModel, List.getElem?_map, List.getElem?_enum] at h
  cases hk : pairs[k]? with
  | none =>
    rw [hk] at h
    exact Option.noConfusion h
  | some pk =>
    rw [hk] at h
    exact ⟨pk, rfl, (Option.some_injective _ h).symm⟩

/-! ## Concrete instances used by the claim theorems below -/

/-- All-good merge environment: everything exists, every probe reports a video
stream, every encode writes one byte. -/
def envOk : MergeEnv :=
  ⟨true, fun _ => true, fun _ => Except.ok ["video"], fun _ => Except.ok 1, fun _ => 0⟩

/-- Like `envOk` except the side-1 segment of index 4 (`a_clip05.mp4`) is
audio-only. -/
def envClip05Audio : MergeEnv :=
  ⟨true, fun _ => true,
   fun p => if p = pjoin "clips/a" (clipFileName "a" 4) then Except.ok ["audio"]
     else Except.ok ["video"],
   fun _ => Except.ok 1, fun _ => 0⟩

/-- Existence oracle with segments 01..10 already present in `dest`. -/
def preCreated10 : String → Bool :=
  fun p => decide (p ∈ (List.range 10).map (fun k => pjoin "dest" (clipFileName "pre" k)))

/-- A concrete resolved pair. -/
def pairA : VPair :=
  ⟨"input/product/1 - alice.mp4", "input/selfie/1 - alice.mp4",
   "1 - alice", "1 - alice", "alice"⟩

/-- A second concrete resolved pair. -/
def pairB : VPair :=
  ⟨"input/product/1 - bob.mp4", "input/selfie/1 - bob.mp4",
   "1 - bob", "1 - bob", "bob"⟩

/-- A fate in which every stage of `processVideoPair` succeeds. -/
def fateOk : PairFate := ⟨true, none, none, envOk, none, none, "t1", "t2"⟩

/-! ## The claim theorems -/

/-- C1: the spec says a segment without a video stream is skipped with the
loop continuing, so that with `clip05` of one side audio-only the merge still
returns success having produced the other 29 final clips.  The code instead
executes a bare `return;` (JS `undefined`): the loop stops at index 4, only
`final_clip01..04` are ever written, and the call does not return `true`.
This theorem evaluates the model on exactly the spec's scenario and exhibits
the divergent behaviour, so the claim is a code bug. -/
theorem C1_merge_skip_is_return :
    (mergeClipsModel envClip05Audio "clips/a" "clips/b" "out" "a" "b" "tmp").1 =
      MergeRet.undef ∧
    ¬ (mergeClipsModel envClip05Audio "clips/a" "clips/b" "out" "a" "b" "tmp").1 =
      MergeRet.val true ∧
    overwriteDsts
        (mergeClipsModel envClip05Audio "clips/a" "clips/b" "out" "a" "b" "tmp").2 =
      [pjoin "out" (finalClipName 0), pjoin "out" (finalClipName 1),
       pjoin "out" (finalClipName 2), pjoin "out" (finalClipName 3)] := by
  refine ⟨by decide, ?_, by decide⟩
  intro hc
  have : MergeRet.undef = MergeRet.val true := by
    rw [← hc]
    decide
  exact absurd this (by decide)

/-- C2: the spec says every case variant of `.ts` is retained by the filter.
The code lowercases `path.extname(file)` and then compares against a list
whose only t-s entry is the uppercase literal `.TS`, so no `.ts`/`.TS` file
can ever pass, even though `.TS` sits in the extension list: a code bug. -/
theorem C2_ts_extension_rejected :
    ".TS" ∈ videoExtList ∧
    isVideoFile "clip.ts" = false ∧
    isVideoFile "clip.TS" = false ∧
    isVideoFile "clip.mp4" = true ∧
    isVideoFile "clip.MP4" = true := by decide

/-- C3 counterexample: with every path existing, `mergeClips` still moves the
temp segment onto `final_clip01.mp4` in overwrite mode, so the claimed
invariant "every write is guarded by a prior existence check and never
performed in overwrite mode" is false for merge outputs. -/
theorem C3_counterexample :
    Action.moveFile (pjoin "tmp" (tempClipName 0 0)) (pjoin "out" (finalClipName 0)) true
      ∈ (mergeClipsModel envOk "clips/a" "clips/b" "out" "a" "b" "tmp").2 ∧
    envOk.ex (pjoin "out" (finalClipName 0)) = true := by decide

/-- C3 (corrected): split jobs are existence-guarded and `moveToCompleted`
never passes an overwrite flag (dodging an occupied target via a strictly
longer timestamped name) — but every move `mergeClips` performs carries
`overwrite: true`, so final clips are written in overwrite mode, contrary to
the original claim. -/
theorem C3_never_overwrite_corrected :
    (∀ input cdir pre ex (j : SegJob), j ∈ splitJobs input cdir pre ex →
      ex j.outPath = false) ∧
    (∀ cwd v ty ex now, ∃ s d,
      moveToCompletedModel cwd v ty ex now = .moveFile s d false ∧
      (ex (pjoin (pjoin (completedRoot cwd) ty) (basename v)) = true →
        d ≠ pjoin (pjoin (completedRoot cwd) ty) (basename v))) ∧
    (∀ env c1 c2 out p1 p2 tmp s d (o : Bool),
      Action.moveFile s d o ∈ (mergeClipsModel env c1 c2 out p1 p2 tmp).2 →
      o = true) := by
  refine ⟨?_, ?_, ?_⟩
  · intro input cdir pre ex j hj
    obtain ⟨i, _, hex, rfl⟩ := (splitJobs_mem input cdir pre ex j).mp hj
    exact hex
  · intro cwd v ty ex now
    exact moveToCompleted_never_overwrites cwd v ty ex now
  · intro env c1 c2 out p1 p2 tmp s d o h
    exact (mergeClips_moves env c1 c2 out p1 p2 tmp s d o h).1

theorem C3_witness :
    ((fun _ => false : String → Bool)
      ((⟨"in", 0, duration, pjoin "d" (clipFileName "p" 0)⟩ : SegJob).outPath) = false) ∧
    true = true := by
  refine ⟨?_, ?_⟩
  · exact C3_never_overwrite_corrected.1 "in" "d" "p" (fun _ => false)
      ⟨"in", 0, duration, pjoin "d" (clipFileName "p" 0)⟩ (by decide)
  · exact C3_never_overwrite_corrected.2.2 envOk "clips/a" "clips/b" "out" "a" "b" "tmp"
      (pjoin "tmp" (tempClipName 0 0)) (pjoin "out" (finalClipName 0)) true (by decide)

/-- C4 counterexample: `.avi` belongs to the supported enumeration set, and
the spec says identity extraction succeeds for every accepted case variant of
the supported extensions; but the extraction regexes only accept
`mp4|mov|MOV|TS`, so a schema-conforming `.avi` name yields `""` for both
extractors. -/
theorem C4_counterexample :
    isVideoFile "2024-05-01 - alice.avi" = true ∧
    extractUsername "2024-05-01 - alice.avi" = "" ∧
    extractTimestamp "2024-05-01 - alice.avi" = "" := by decide

/-- C4 (corrected): the identity-extraction contract holds exactly for the
extension alternatives hard-wired in the regexes — `mp4`, `mov`, `MOV`, `TS`
— not for every case variant of the supported set: for a schema name
`p - u.ext` with such an extension, a nonempty dash-free identity and a
prefix free of line terminators, `extractUsername` returns the trimmed
identity and `extractTimestamp` the trimmed prefix; the concrete conjuncts
show the spec's worked example, the `.avi` failure, and that non-conforming
names give `""` (both functions are total, so nothing is ever thrown). -/
theorem C4_identity_extraction_corrected (p u e : String)
    (he : e = "mp4" ∨ e = "mov" ∨ e = "MOV" ∨ e = "TS")
    (hu : u.data ≠ []) (hdash : '-' ∉ u.data)
    (hlt : ∀ c ∈ p.data, isLineTerm c = false) :
    (extractUsername (p ++ " - " ++ u ++ "." ++ e) = jsTrim u ∧
     extractTimestamp (p ++ " - " ++ u ++ "." ++ e) = jsTrim p) ∧
    (extractUsername "2024-05-01 - alice.mp4" = "alice" ∧
     extractTimestamp "2024-05-01 - alice.mp4" = "2024-05-01" ∧
     extractUsername "2024-05-01 - alice.avi" = "" ∧
     extractTimestamp "2024-05-01 - alice.avi" = "" ∧
     extractUsername "alice.mp4" = "" ∧
     extractTimestamp "alice.mp4" = "") :=
  ⟨extract_schema_core p u e he hu hdash hlt, by decide⟩

theorem C4_witness :
    (extractUsername ("2024-05-01" ++ " - " ++ "alice" ++ "." ++ "mp4") = jsTrim "alice" ∧
     extractTimestamp ("2024-05-01" ++ " - " ++ "alice" ++ "." ++ "mp4") =
       jsTrim "2024-05-01") ∧
    (extractUsername "2024-05-01 - alice.mp4" = "alice" ∧
     extractTimestamp "2024-05-01 - alice.mp4" = "2024-05-01" ∧
     extractUsername "2024-05-01 - alice.avi" = "" ∧
     extractTimestamp "2024-05-01 - alice.avi" = "" ∧
     extractUsername "alice.mp4" = "" ∧
     extractTimestamp "alice.mp4" = "") :=
  C4_identity_extraction_corrected "2024-05-01" "alice" "mp4"
    (by decide) (by decide) (by decide) (by decide)

/-- C5 counterexample: the same four files enumerated in two different
`readdir` orders produce the pair list in two different orders (`["a", "b"]`
versus `["b", "a"]`): two-run determinism with the same output order fails,
because identity groups are emitted in first-seen enumeration order. -/
theorem C5_counterexample :
    (["1 - a.mp4", "1 - b.mp4"] : List String).Perm ["1 - b.mp4", "1 - a.mp4"] ∧
    (findVideoPairsModel "input" ["1 - a.mp4", "1 - b.mp4"] ["1 - a.mp4", "1 - b.mp4"]
      (fun _ => true)).map (fun q => q.username) = ["a", "b"] ∧
    (findVideoPairsModel "input" ["1 - b.mp4", "1 - a.mp4"] ["1 - a.mp4", "1 - b.mp4"]
      (fun _ => true)).map (fun q => q.username) = ["b", "a"] := by decide

/-- C5 (corrected): re-enumerating the same file sets does not in general
reproduce the same pair order; what holds is invariance up to permutation —
under duplicate-free listings, a fully-live filesystem and distinct ordering
keys inside every identity group, the two runs return the same pairs as a
permutation of each other. -/
theorem C5_pairing_order_perm (sourceDir : String) (pf1 pf2 sf1 sf2 : List String)
    (ex : String → Bool)
    (hpp : pf1.Perm pf2) (hsp : sf1.Perm sf2)
    (hp : pf1.Nodup) (hs : sf1.Nodup) (hex : ∀ p, ex p = true)
    (htsP : ∀ u, (((pf1.filter isVideoFile).filter
      (fun f => decide (extractUsername f = u))).map extractTimestamp).Nodup)
    (htsS : ∀ u, (((sf1.filter isVideoFile).filter
      (fun f => decide (extractUsername f = u))).map extractTimestamp).Nodup) :
    (findVideoPairsModel sourceDir pf1 sf1 ex).Perm
      (findVideoPairsModel sourceDir pf2 sf2 ex) :=
  findVideoPairsModel_perm sourceDir pf1 pf2 sf1 sf2 ex hpp hsp hp hs hex htsP htsS

theorem C5_witness :
    (findVideoPairsModel "input" ["1 - alice.mp4", "2 - alice.mp4"] ["3 - alice.mp4"]
        (fun _ => true)).Perm
      (findVideoPairsModel "input" ["2 - alice.mp4", "1 - alice.mp4"] ["3 - alice.mp4"]
        (fun _ => true)) :=
  C5_pairing_order_perm "input" ["1 - alice.mp4", "2 - alice.mp4"]
    ["2 - alice.mp4", "1 - alice.mp4"] ["3 - alice.mp4"] ["3 - alice.mp4"]
    (fun _ => true) (by decide) (by decide) (by decide) (by decide) (fun _ => rfl)
    (ts_nodup_of_global _ (by decide)) (ts_nodup_of_global _ (by decide))

/-- C6: one-to-one pairing.  Under duplicate-free listings and a fully-live
filesystem, no product path and no selfie path appears in more than one
returned pair, and for an identity present in both collections the number of
its pairs is exactly the minimum of its two group sizes; the concrete
conjunct is the spec's 2-products/1-selfie example, with the leftover product
file reported as skipped, never paired. -/
theorem C6_one_to_one (sourceDir : String) (pf sf : List String) (ex : String → Bool)
    (w : String) (hp : pf.Nodup) (hs : sf.Nodup) (hex : ∀ p, ex p = true)
    (hwP : w ∈ (pf.filter isVideoFile).map extractUsername)
    (hwS : w ∈ (sf.filter isVideoFile).map extractUsername) :
    ((findVideoPairsModel sourceDir pf sf ex).map (fun q => q.video1)).Nodup ∧
    ((findVideoPairsModel sourceDir pf sf ex).map (fun q => q.video2)).Nodup ∧
    ((findVideoPairsModel sourceDir pf sf ex).filter
        (fun q => decide (q.username = w))).length =
      min ((pf.filter isVideoFile).filter
            (fun f => decide (extractUsername f = w))).length
          ((sf.filter isVideoFile).filter
            (fun f => decide (extractUsername f = w))).length ∧
    ((findVideoPairsModel "input" ["1 - alice.mp4", "2 - alice.mp4"] ["1 - alice.mp4"]
        (fun _ => true)).length = 1 ∧
      skippedProductCount "input" ["1 - alice.mp4", "2 - alice.mp4"] ["1 - alice.mp4"]
        (fun _ => true) = 1) :=
  ⟨model_video1_nodup sourceDir pf sf ex hp hs hex,
   model_video2_nodup sourceDir pf sf ex hp hs hex,
   pairs_count_min sourceDir pf sf ex w hp hs hex hwP hwS, by decide⟩

theorem C6_witness :
    ((findVideoPairsModel "input" ["1 - alice.mp4", "2 - alice.mp4"] ["1 - alice.mp4"]
        (fun _ => true)).filter (fun q => decide (q.username = "alice"))).length =
      min 2 1 := by
  have h := C6_one_to_one "input" ["1 - alice.mp4", "2 - alice.mp4"] ["1 - alice.mp4"]
    (fun _ => true) "alice" (by decide) (by decide) (fun _ => rfl) (by decide) (by decide)
  rw [h.2.2.1]
  decide

/-- C7: idempotent split resume.  A job is enqueued exactly for the indices
whose destination file does not exist; `splitVideo` removes nothing and its
only writes are those job destinations (all non-existing), so pre-existing
segments are untouched; and on the spec's concrete instance — segments
01..10 pre-created — the job queue is exactly segments 11..30. -/
theorem C7_idempotent_split (input cdir pre : String) (ex : String → Bool) :
    (∀ j ∈ splitJobs input cdir pre ex, ex j.outPath = false ∧
      ∃ i, i < totalClips ∧
        j = ⟨input, i * duration, duration, pjoin cdir (clipFileName pre i)⟩) ∧
    (∀ i, i < totalClips → ex (pjoin cdir (clipFileName pre i)) = false →
      (⟨input, i * duration, duration, pjoin cdir (clipFileName pre i)⟩ : SegJob) ∈
        splitJobs input cdir pre ex) ∧
    removedPaths (splitActions input cdir pre ex) = [] ∧
    (∀ d, Action.engineWrite d ∈ splitActions input cdir pre ex → ex d = false) ∧
    (splitJobs "src.mp4" "dest" "pre" preCreated10).map (fun j => j.outPath) =
      (List.range 20).map (fun k => pjoin "dest" (clipFileName "pre" (10 + k))) := by
  refine ⟨?_, ?_, splitActions_removes input cdir pre ex, ?_, by decide⟩
  · intro j hj
    obtain ⟨i, hi, hex, rfl⟩ := (splitJobs_mem input cdir pre ex j).mp hj
    exact ⟨hex, i, hi, rfl⟩
  · intro i hi hex
    exact (splitJobs_mem input cdir pre ex _).mpr ⟨i, hi, hex, rfl⟩
  · intro d hd
    rw [splitActions] at hd
    rcases List.mem_cons.mp hd with hd | hd
    · exact absurd hd (by simp)
    · obtain ⟨j, hj, hjd⟩ := List.mem_map.mp hd
      obtain ⟨i, _, hex, rfl⟩ := (splitJobs_mem input cdir pre ex j).mp hj
      have hd2 := Action.engineWrite.inj hjd.symm
      rw [hd2]
      exact hex

theorem C7_witness :
    (⟨"src.mp4", 10 * duration, duration,
        pjoin "dest" (clipFileName "pre" 10)⟩ : SegJob) ∈
      splitJobs "src.mp4" "dest" "pre" preCreated10 := by
  have h := C7_idempotent_split "src.mp4" "dest" "pre" preCreated10
  exact h.2.1 10 (by decide) (by decide)

/-- C8: pair-isolated failure.  The main loop gives every resolved pair its
own trace whatever the fates of the other pairs (so a failure at pair `k`
never prevents pair `k+1` from being attempted), and — for an absolute
working directory — no removal and no overwrite-mode move in pair `k`'s
trace touches a different pair's committed output directory (equality or
strict containment) or anything in the completed area, so earlier pairs'
outputs and relocations survive pair `k`'s failure and cleanup. -/
theorem C8_pair_isolated (cwd : String) (hcwd : ∃ cs, cwd.data = '/' :: cs)
    (pairs : List VPair) (fates : Nat → PairFate) :
    (mainModel cwd pairs fates).length = pairs.length ∧
    (∀ k pk, pairs[k]? = some pk →
      (mainModel cwd pairs fates)[k]? =
        some (processVideoPairModel cwd pk k (fates k))) ∧
    (∀ k tr, (mainModel cwd pairs fates)[k]? = some tr →
      ∀ j pj, pairs[j]? = some pj → j ≠ k →
        (∀ q ∈ removedPaths tr,
          ¬ underDir (outputSubDirOf cwd j pj.name1 pj.name2) q ∧
          ¬ underCompleted cwd q) ∧
        (∀ d ∈ overwriteDsts tr,
          ¬ underDir (outputSubDirOf cwd j pj.name1 pj.name2) d ∧
          ¬ underCompleted cwd d)) := by
  refine ⟨mainModel_length cwd pairs fates, ?_, ?_⟩
  · intro k pk hk
    exact mainModel_getElem? cwd pairs fates k pk hk
  · intro k tr htr j pj hj hjk
    obtain ⟨pk, hk, rfl⟩ := mainModel_getElem?_inv cwd pairs fates k tr htr
    constructor
    · intro q hq
      rcases proc_removes cwd pk k (fates k) q hq with h | h | h | h | ⟨t, h⟩
      · rw [h]
        exact ⟨out_not_under_out cwd j k hjk pj.name1 pj.name2 pk.name1 pk.name2,
          out_not_underCompleted cwd k pk.name1 pk.name2⟩
      · rw [h]
        exact ⟨clips_not_under_out cwd hcwd j pj.name1 pj.name2 pk.name1,
          clips_not_underCompleted cwd hcwd pk.name1⟩
      · rw [h]
        exact ⟨clips_not_under_out cwd hcwd j pj.name1 pj.name2 pk.name2,
          clips_not_underCompleted cwd hcwd pk.name2⟩
      · rw [h]
        exact ⟨outChild_not_under_out cwd j k hjk pj.name1 pj.name2 pk.name1 pk.name2
          ".test", outChild_not_underCompleted cwd k pk.name1 pk.name2 ".test"⟩
      · rw [h]
        exact ⟨temp_not_under_out cwd j pj.name1 pj.name2 t,
          temp_not_underCompleted cwd t⟩
    · intro d hd
      obtain ⟨s, hs⟩ := proc_overwrites cwd pk k (fates k) d hd
      rw [hs]
      exact ⟨outChild_not_under_out cwd j k hjk pj.name1 pj.name2 pk.name1 pk.name2 s,
        outChild_not_underCompleted cwd k pk.name1 pk.name2 s⟩

theorem C8_witness :
    (mainModel "/app" [pairA, pairB] (fun _ => fateOk)).length = 2 := by
  have h := C8_pair_isolated "/app" ⟨"app".data, by decide⟩ [pairA, pairB]
    (fun _ => fateOk)
  rw [h.1]
  rfl

/-- C9 counterexample: with `limit = 0` no runner is ever created, so
`Promise.all([])` settles resolved immediately: the call resolves although
the single task — whose promise would reject — never ran, refuting
"resolves if and only if every task completed successfully". -/
theorem C9_counterexample :
    SchedReach 1 (fun _ => false) 0 (initState 1 0) ∧
    terminalB (initState 1 0) = true ∧
    resolvedB (initState 1 0) = true ∧
    (initState 1 0).started = [] ∧
    ¬ (∀ i, i < 1 → (fun _ => false : Nat → Bool) i = true) :=
  ⟨Relation.ReflTransGen.refl, by decide, by decide, by decide, by decide⟩

/-- C9 (corrected): for a concurrency limit of at least 1, every reachable
scheduler state starts each task at most once (the claimed-index ghost log is
duplicate-free), runs at most `limit` tasks concurrently, settles resolved
exactly when every task succeeded (a failure surfaces as rejection instead),
cannot get stuck before settling, and a task already running can always take
its own step — it is never forcibly cancelled.  With `limit = 0` the contract
fails (see the counterexample), so the original unqualified claim needed the
`1 ≤ limit` hypothesis. -/
theorem C9_scheduler_contract (n : Nat) (ok : Nat → Bool) (limit : Nat) (s : CState)
    (hlim : 1 ≤ limit) (hreach : SchedReach n ok limit s) :
    s.started.Nodup ∧
    runningCount s ≤ limit ∧
    (terminalB s = true → (resolvedB s = true ↔ ∀ i, i < n → ok i = true)) ∧
    (terminalB s = false → ∃ s2, SchedStep n ok s s2) ∧
    (∀ r i : Nat, s.runners[r]? = some (RS.running i) → ∃ s2, SchedStep n ok s s2) := by
  obtain ⟨h1, h2, h3, h4⟩ := sched_core n ok limit s hlim hreach
  refine ⟨h1, h2, h3, ?_, h4⟩
  intro hterm
  exact sched_progress n ok limit s hreach (by simp [hterm])

theorem C9_witness :
    (initState 2 1).started.Nodup ∧ runningCount (initState 2 1) ≤ 1 := by
  have h := C9_scheduler_contract 2 (fun _ => true) 1 (initState 2 1) (by decide)
    Relation.ReflTransGen.refl
  exact ⟨h.1, h.2.1⟩

/-- C10: every file the pipeline creates carries the fixed `.mp4` extension,
independent of the source extension: segment, final and temp filenames all
have `extname = ".mp4"`, every split job writes `<prefix>_clipNN.mp4` under
the clips dir, and every move `mergeClips` performs lands on
`final_clipNN.mp4` under the output dir. -/
theorem C10_fixed_mp4_extension :
    (∀ pre i, extname (clipFileName pre i) = ".mp4") ∧
    (∀ i, extname (finalClipName i) = ".mp4") ∧
    (∀ t i, extname (tempClipName t i) = ".mp4") ∧
    (∀ input cdir pre ex (j : SegJob), j ∈ splitJobs input cdir pre ex →
      ∃ i, i < totalClips ∧ j.outPath = pjoin cdir (clipFileName pre i)) ∧
    (∀ env c1 c2 out p1 p2 tmp s d (o : Bool),
      Action.moveFile s d o ∈ (mergeClipsModel env c1 c2 out p1 p2 tmp).2 →
      ∃ n, d = pjoin out (finalClipName n)) := by
  refine ⟨extname_clipFileName, extname_finalClipName, extname_tempClipName, ?_, ?_⟩
  · intro input cdir pre ex j hj
    obtain ⟨i, hi, _, rfl⟩ := (splitJobs_mem input cdir pre ex j).mp hj
    exact ⟨i, hi, rfl⟩
  · intro env c1 c2 out p1 p2 tmp s d o h
    obtain ⟨_, n, _, hd⟩ := mergeClips_moves env c1 c2 out p1 p2 tmp s d o h
    exact ⟨n, hd⟩

theorem C10_witness :
    (∃ i, i < totalClips ∧
      (⟨"src", 0, duration, pjoin "d" (clipFileName "p" 0)⟩ : SegJob).outPath =
        pjoin "d" (clipFileName "p" i)) ∧
    (∃ n, pjoin "out" (finalClipName 0) = pjoin "out" (finalClipName n)) := by
  have h := C10_fixed_mp4_extension
  refine ⟨?_, ?_⟩
  · exact h.2.2.2.1 "src" "d" "p" (fun _ => false)
      ⟨"src", 0, duration, pjoin "d" (clipFileName "p" 0)⟩ (by decide)
  · exact h.2.2.2.2 envOk "clips/a" "clips/b" "out" "a" "b" "tmp"
      (pjoin "tmp" (tempClipName 0 0)) (pjoin "out" (finalClipName 0)) true (by decide)

end AutoClipper
